import Mathlib

/-!
# Collisions: particles bouncing inside a circular boundary (`multi.cpp`)

A shallow embedding of the physics kernel of `multi.cpp`: the `Vector2` value
type, the colour conversion `HSVtoRGB`, the integrator `Particle::update`, and
the boundary test and response `Circle::checkCollision` and
`Circle::handleCollision`.

The program computes on `double`.  The embedding reads that arithmetic as
exact: every definition is written over an arbitrary ordered field `K` that
carries a floor function (for `static_cast<int>`) and a square root (for
`std::sqrt`).  The definitions are ordinary computable functions of `K`; the
theorems about lengths are stated for `K = ℝ`, where the square root is
`Real.sqrt`.

Where rounding decides what the code returns, the boundary test and response
are also given on binary64 (`Circle.checkCollisionD`,
`Circle.handleCollisionD`), and the theorems of the last section evaluate them.
-/

namespace Collisions

/-- The square root the program takes from `<cmath>` (`std::sqrt`). -/
class HasSqrt (K : Type) where
  /-- The square root function. -/
  sqrt : K → K

/-- Over the reals `std::sqrt` is read as `Real.sqrt`. -/
noncomputable instance instHasSqrtReal : HasSqrt ℝ := ⟨Real.sqrt⟩

/-- The trigonometry the program takes from `<cmath>`: `cos`, `sin` and the
constant `M_PI`. -/
class HasTrig (K : Type) where
  /-- The cosine function. -/
  cos : K → K
  /-- The sine function. -/
  sin : K → K
  /-- The constant `M_PI`. -/
  pi : K

/-- Over the reals `cos`, `sin` and `M_PI` are read as the real cosine, the
real sine and `π`. -/
noncomputable instance instHasTrigReal : HasTrig ℝ := ⟨Real.cos, Real.sin, Real.pi⟩

/-- The `struct Vector2` of the source: two `double` coordinates. -/
@[ext]
structure Vector2 (K : Type) where
  x : K
  y : K

/-- The `SDL_Color` of the source: four `Uint8` channels. -/
structure SDL_Color where
  r : Nat
  g : Nat
  b : Nat
  a : Nat

/-- The `class Particle` of the source (data members only). -/
structure Particle (K : Type) where
  radius : K
  pos : Vector2 K
  vel : Vector2 K
  acc : Vector2 K
  color : SDL_Color

/-- The `class Circle` of the source (data members only). -/
structure Circle (K : Type) where
  pos : Vector2 K
  radius : K

section Definitions

variable {K : Type} [LinearOrderedField K]

/-- The default constructor call `Vector2()`, both coordinates `0`. -/
def Vector2.zero : Vector2 K := ⟨0, 0⟩

/-- The member `Vector2::dot`. -/
def Vector2.dot (v other : Vector2 K) : K :=
  v.x * other.x + v.y * other.y

/-- The member `Vector2::operator+`. -/
def Vector2.add (v other : Vector2 K) : Vector2 K :=
  ⟨v.x + other.x, v.y + other.y⟩

/-- The member `Vector2::operator-`. -/
def Vector2.sub (v other : Vector2 K) : Vector2 K :=
  ⟨v.x - other.x, v.y - other.y⟩

/-- The member `Vector2::operator*` (scaling by a `double`). -/
def Vector2.mul (v : Vector2 K) (scalar : K) : Vector2 K :=
  ⟨v.x * scalar, v.y * scalar⟩

/-- The member `Vector2::operator+=`; the updated receiver is returned. -/
def Vector2.addAssign (v other : Vector2 K) : Vector2 K :=
  ⟨v.x + other.x, v.y + other.y⟩

/-- The member `Vector2::length`. -/
def Vector2.length [HasSqrt K] (v : Vector2 K) : K :=
  HasSqrt.sqrt (v.x * v.x + v.y * v.y)

/-- The member `Vector2::normalized`.  As in the source the reciprocal of the
length is formed before the length is compared with `0`; when the length is
`0` the reciprocal is not used and `Vector2()` is returned. -/
def Vector2.normalized [HasSqrt K] (v : Vector2 K) : Vector2 K :=
  let len := v.length
  let invLength := 1 / len
  if len = 0 then Vector2.zero else ⟨v.x * invLength, v.y * invLength⟩

/-- The member `Particle::update`: first `vel += acc * dt`, then
`pos += vel * dt` with the velocity just stored. -/
def Particle.update (p : Particle K) (dt : K) : Particle K :=
  let p1 := { p with vel := p.vel.addAssign (p.acc.mul dt) }
  { p1 with pos := p1.pos.addAssign (p1.vel.mul dt) }

/-- The member `Circle::checkCollision`, with `double` read as exact; the same
code with binary64 rounding is `Circle.checkCollisionD`. -/
def Circle.checkCollision (c : Circle K) (particle : Particle K) : Bool :=
  let dist := (particle.pos.sub c.pos).dot (particle.pos.sub c.pos)
  decide (dist > (c.radius - particle.radius) * (c.radius - particle.radius))

/-- The private member `Circle::closestPointOnCircle`. -/
def Circle.closestPointOnCircle [HasSqrt K] (c : Circle K) (point : Vector2 K) :
    Vector2 K :=
  let direction := point.sub c.pos
  let direction := direction.normalized
  c.pos.add (direction.mul c.radius)

/-- The member `Circle::handleCollision`, with `double` read as exact; the
particle passed by reference is returned with its new velocity.  The same code
with binary64 rounding is `Circle.handleCollisionD`. -/
def Circle.handleCollision [HasSqrt K] (c : Circle K) (particle : Particle K) :
    Particle K :=
  let collisionPoint := c.closestPointOnCircle particle.pos
  let normal := (particle.pos.sub collisionPoint).normalized
  let reflection := particle.vel.sub ((normal.mul 2).mul (particle.vel.dot normal))
  { particle with vel := reflection }

/-- The conversion `static_cast<int>(x)` of a `double`: the fractional part is
discarded, rounding toward zero (values outside the range of `int` are not
modelled). -/
def truncToInt [FloorRing K] (x : K) : Int :=
  if 0 ≤ x then ⌊x⌋ else ⌈x⌉

/-- The function `HSVtoRGB`.  The outputs `r`, `g`, `b` are reference
parameters: they come in as `rgb` and go out unchanged when no `case` of the
`switch` matches the sector `i`.  The `%` of C++ on `int` is `Int.tmod`. -/
def HSVtoRGB [FloorRing K] (h s v : K) (rgb : K × K × K) : K × K × K :=
  let i : Int := (truncToInt (h / 60)).tmod 6
  let f : K := (h / 60) - (i : K)
  let p : K := v * (1 - s)
  let q : K := v * (1 - f * s)
  let t : K := v * (1 - (1 - f) * s)
  if i = 0 then (v, t, p)
  else if i = 1 then (q, v, p)
  else if i = 2 then (p, v, t)
  else if i = 3 then (p, q, v)
  else if i = 4 then (t, p, v)
  else if i = 5 then (v, p, q)
  else rgb

/-- The conversion `static_cast<Uint8>(x)` of a `double`: truncation toward
zero, kept in `0 .. 255` (on a value outside that range, which the standard
leaves undefined, the low eight bits of the truncated integer are kept). -/
def toUint8 [FloorRing K] (x : K) : Nat :=
  (truncToInt x % 256).toNat

/-- The function `getColor`.  Its locals `r`, `g`, `b` are not initialised
before they are handed to `HSVtoRGB`; `uninit` stands for what they hold. -/
def getColor [FloorRing K] (angle : K) (uninit : K × K × K) : SDL_Color :=
  let hue := angle
  let rgb := HSVtoRGB hue 1 1 uninit
  let red := toUint8 (rgb.1 * 255)
  let green := toUint8 (rgb.2.1 * 255)
  let blue := toUint8 (rgb.2.2 * 255)
  let alpha := 255
  ⟨red, green, blue, alpha⟩

/-- The constructor `Particle(x, y, vx, vy, ax, ay, radius, color)`. -/
def Particle.ctor (x y vx vy ax ay radius : K) (color : SDL_Color) : Particle K :=
  { pos := ⟨x, y⟩, vel := ⟨vx, vy⟩, acc := ⟨ax, ay⟩, radius := radius, color := color }

/-- The particle that one pass of the loop of `placeDotsInCircle` builds from
the accumulated `angle` (lines 180-183). -/
def dotAt [FloorRing K] [HasTrig K] (radius : K) (initPos : Vector2 K)
    (uninit : K × K × K) (angle : K) : Particle K :=
  let color := getColor angle uninit
  let x := radius * HasTrig.cos (angle * HasTrig.pi / 180) + initPos.x
  let y := radius * HasTrig.sin (angle * HasTrig.pi / 180) + initPos.y
  Particle.ctor x y 0 0 0 2 6 color

/-- The `for` loop of `placeDotsInCircle`, entered with the counter `i`, the
accumulated `angle` and the vector `coordinates` built so far. -/
def placeDotsLoop [FloorRing K] [HasTrig K] (radius : K) (numDots : Int)
    (initPos : Vector2 K) (uninit : K × K × K) (i : Int) (angle : K)
    (coordinates : List (Particle K)) : List (Particle K) :=
  if i < numDots then
    let color := getColor angle uninit
    let x := radius * HasTrig.cos (angle * HasTrig.pi / 180) + initPos.x
    let y := radius * HasTrig.sin (angle * HasTrig.pi / 180) + initPos.y
    let circle := Particle.ctor x y 0 0 0 2 6 color
    placeDotsLoop radius numDots initPos uninit (i + 1) (angle + 360 / (numDots : K))
      (coordinates ++ [circle])
  else coordinates
termination_by (numDots - i).toNat
decreasing_by omega

/-- The function `placeDotsInCircle`; `uninit` is passed on to `getColor`. -/
def placeDotsInCircle [FloorRing K] [HasTrig K] (radius : K) (numDots : Int)
    (initPos : Vector2 K) (uninit : K × K × K) : List (Particle K) :=
  placeDotsLoop radius numDots initPos uninit 0 0 []

/-- The physics of one pass of the particle loop of `main` (lines 219-222):
`update(dt)`, then `handleCollision` when `checkCollision` holds.  The step
`dt` is `0.005f` in `main`. -/
def tickParticle [HasSqrt K] (perfectCircle : Circle K) (dt : K)
    (particle : Particle K) : Particle K :=
  let particle := particle.update dt
  if perfectCircle.checkCollision particle then perfectCircle.handleCollision particle
  else particle

/-- The particle loop of `main` (line 218), entered with the index `i`: the
element `particles[i]` is replaced by its state after the pass; drawing is
left out. -/
def tickLoop [HasSqrt K] (perfectCircle : Circle K) (dt : K)
    (particles : List (Particle K)) (i : Nat) : List (Particle K) :=
  if h : i < particles.length then
    tickLoop perfectCircle dt
      (particles.set i (tickParticle perfectCircle dt particles[i])) (i + 1)
  else particles
termination_by particles.length - i
decreasing_by
  simp only [List.length_set]
  omega

/-- One simulation tick over the particle collection. -/
def simulationTick [HasSqrt K] (perfectCircle : Circle K) (dt : K)
    (particles : List (Particle K)) : List (Particle K) :=
  tickLoop perfectCircle dt particles 0

/-- The boundary of the end-to-end scenario: radius `100`, centred at `(0, 0)`. -/
def scenarioCircle : Circle K := ⟨⟨0, 0⟩, 100⟩

/-- A particle of the end-to-end scenario: on the horizontal axis at `(x, 0)`
with velocity `(vx, 0)`, zero acceleration, radius `r` and any colour. -/
def scenarioParticle (r x vx : K) (color : SDL_Color) : Particle K :=
  Particle.ctor x 0 vx 0 0 0 r color

end Definitions

/-! ## The same code on IEEE-754 binary64

The definitions above read `double` as an exact ordered field.  The
definitions below are the same functions of `multi.cpp` with every arithmetic
operation of `double` rounded as binary64 does it: the exact result is formed
over `ℚ` and rounded to the nearest value with a 53-bit significand, ties to
the even significand, with gradual underflow below `2 ^ (-1022)`.  A finite
`double` is given by the rational it denotes.  Infinities, NaN and the sign of
zero are outside this model: a result of magnitude `2 ^ 1024` or more and a
quotient by zero are not meaningful in it.
-/

namespace Float64

/-- The power `2 ^ k` for an integer exponent `k`. -/
def pow2 (k : Int) : ℚ :=
  if 0 ≤ k then ((2 ^ k.toNat : Nat) : ℚ) else mkRat 1 (2 ^ (-k).toNat)

/-- The loop that counts the halvings of `n` down to `1`, at most `fuel` of them. -/
def log2Aux : Nat → Nat → Nat
  | 0, _ => 0
  | fuel + 1, n => if 2 ≤ n then log2Aux fuel (n / 2) + 1 else 0

/-- The position of the leading bit of `n > 0`: `2 ^ log2 n ≤ n < 2 ^ (log2 n + 1)`. -/
def log2 (n : Nat) : Nat :=
  log2Aux n n

/-- The binary exponent of the positive rational `n / d`: the integer `e` with
`2 ^ e ≤ n / d < 2 ^ (e + 1)`. -/
def ilog2 (n d : Nat) : Int :=
  let e0 : Int := (log2 n : Int) - (log2 d : Int)
  if (if 0 ≤ e0 then d * 2 ^ e0.toNat ≤ n else d ≤ n * 2 ^ (-e0).toNat) then e0 else e0 - 1

/-- Numerator and denominator of `(n / d) / 2 ^ k`. -/
def scale (n d : Nat) (k : Int) : Nat × Nat :=
  if 0 ≤ k then (n, d * 2 ^ k.toNat) else (n * 2 ^ (-k).toNat, d)

/-- The integer nearest to `N / D`; of two equally near integers the even one. -/
def roundHalfEven (N D : Nat) : Nat :=
  let f := N / D
  let r := N % D
  if 2 * r < D then f else if D < 2 * r then f + 1 else if f % 2 = 0 then f else f + 1

/-- The binary64 value nearest to the positive rational `n / d`: with `e` its
binary exponent (not below `-1022`, where the subnormal range starts), the
multiple of `2 ^ (e - 52)` nearest to it, ties to even. -/
def roundPos (n d : Nat) : ℚ :=
  let e := ilog2 n d
  let k := max e (-1022) - 52
  let s := scale n d k
  (roundHalfEven s.1 s.2 : ℚ) * pow2 k

/-- Rounding of an exact result to binary64: round to nearest, ties to even. -/
def roundNE (q : ℚ) : ℚ :=
  if q = 0 then 0
  else if 0 < q then roundPos q.num.toNat q.den
  else -roundPos (-q.num).toNat q.den

/-- The loop of the integer square root: the bits of the root are tried from
bit `b - 1` down to bit `0`. -/
def isqrtAux : Nat → Nat → Nat → Nat
  | 0, _, r => r
  | b + 1, n, r =>
    if (r + 2 ^ b) * (r + 2 ^ b) ≤ n then isqrtAux b n (r + 2 ^ b) else isqrtAux b n r

/-- The integer square root: the greatest `r` with `r * r ≤ n`. -/
def isqrt (n : Nat) : Nat :=
  isqrtAux (log2 n / 2 + 1) n 0

/-- The binary64 value nearest to the square root of the positive rational
`n / d`: with `e` the binary exponent of the root, `m` is the integer part of
the root in units of `2 ^ (e - 52)`, and the root is compared with `m + 1 / 2`
through the squares. -/
def sqrtPos (n d : Nat) : ℚ :=
  let e := Int.fdiv (ilog2 n d) 2
  let k := e - 52
  let s := scale n d (2 * k)
  let m := isqrt (s.1 / s.2)
  let c := (4 * m * m + 4 * m + 1) * s.2
  let m1 :=
    if 4 * s.1 < c then m else if c < 4 * s.1 then m + 1 else if m % 2 = 0 then m else m + 1
  (m1 : ℚ) * pow2 k

/-- The function `std::sqrt` on a non-negative binary64 value, correctly rounded. -/
def sqrtNE (q : ℚ) : ℚ :=
  if 0 < q then sqrtPos q.num.toNat q.den else 0

end Float64

/-- A finite `double`, given by the rational number it denotes. -/
structure F64 where
  val : ℚ
deriving DecidableEq

/-- The `+` of `double`: the exact sum, rounded. -/
instance instAddF64 : Add F64 := ⟨fun a b => ⟨Float64.roundNE (a.val + b.val)⟩⟩

/-- The `-` of `double`: the exact difference, rounded. -/
instance instSubF64 : Sub F64 := ⟨fun a b => ⟨Float64.roundNE (a.val - b.val)⟩⟩

/-- The `*` of `double`: the exact product, rounded. -/
instance instMulF64 : Mul F64 := ⟨fun a b => ⟨Float64.roundNE (a.val * b.val)⟩⟩

/-- The `/` of `double` by a non-zero divisor: the exact quotient, rounded. -/
instance instDivF64 : Div F64 := ⟨fun a b => ⟨Float64.roundNE (a.val / b.val)⟩⟩

/-- A numeric literal of the source as a `double`. -/
instance instOfNatF64 (n : Nat) : OfNat F64 n := ⟨⟨Float64.roundNE n⟩⟩

/-- The `<` of `double` on finite values. -/
instance instLTF64 : LT F64 := ⟨fun a b => a.val < b.val⟩

/-- The `<` of `double` is decided on the rationals denoted. -/
instance instDecidableLTF64 (a b : F64) : Decidable (a < b) :=
  inferInstanceAs (Decidable (a.val < b.val))

/-- The function `std::sqrt` on `double`. -/
def F64.sqrt (a : F64) : F64 :=
  ⟨Float64.sqrtNE a.val⟩

/-- The member `Vector2::dot` on `double`. -/
def Vector2.dotD (v other : Vector2 F64) : F64 :=
  v.x * other.x + v.y * other.y

/-- The member `Vector2::operator+` on `double`. -/
def Vector2.addD (v other : Vector2 F64) : Vector2 F64 :=
  ⟨v.x + other.x, v.y + other.y⟩

/-- The member `Vector2::operator-` on `double`. -/
def Vector2.subD (v other : Vector2 F64) : Vector2 F64 :=
  ⟨v.x - other.x, v.y - other.y⟩

/-- The member `Vector2::operator*` on `double`. -/
def Vector2.mulD (v : Vector2 F64) (scalar : F64) : Vector2 F64 :=
  ⟨v.x * scalar, v.y * scalar⟩

/-- The member `Vector2::length` on `double`. -/
def Vector2.lengthD (v : Vector2 F64) : F64 :=
  F64.sqrt (v.x * v.x + v.y * v.y)

/-- The member `Vector2::normalized` on `double`.  When the length is `0` the
reciprocal formed first (an infinity in binary64) is not used. -/
def Vector2.normalizedD (v : Vector2 F64) : Vector2 F64 :=
  let len := v.lengthD
  let invLength := 1 / len
  if len = 0 then ⟨0, 0⟩ else ⟨v.x * invLength, v.y * invLength⟩

/-- The member `Circle::checkCollision` on `double`. -/
def Circle.checkCollisionD (c : Circle F64) (particle : Particle F64) : Bool :=
  let dist := (particle.pos.subD c.pos).dotD (particle.pos.subD c.pos)
  decide (dist > (c.radius - particle.radius) * (c.radius - particle.radius))

/-- The private member `Circle::closestPointOnCircle` on `double`. -/
def Circle.closestPointOnCircleD (c : Circle F64) (point : Vector2 F64) : Vector2 F64 :=
  let direction := point.subD c.pos
  let direction := direction.normalizedD
  c.pos.addD (direction.mulD c.radius)

/-- The member `Circle::handleCollision` on `double`. -/
def Circle.handleCollisionD (c : Circle F64) (particle : Particle F64) : Particle F64 :=
  let collisionPoint := c.closestPointOnCircleD particle.pos
  let normal := (particle.pos.subD collisionPoint).normalizedD
  let reflection := particle.vel.subD ((normal.mulD 2).mulD (particle.vel.dotD normal))
  { particle with vel := reflection }

/-! ## The integrator `Particle::update` -/

section Integrator

variable {K : Type} [LinearOrderedField K]

/-- One call of `update` leaves acceleration, radius and colour alone. -/
theorem update_frame (p : Particle K) (dt : K) :
    (p.update dt).acc = p.acc ∧ (p.update dt).radius = p.radius ∧
      (p.update dt).color = p.color :=
  ⟨rfl, rfl, rfl⟩

/-- State after `n` calls of `update dt`, from an arbitrary start: the velocity
has gained `n * dt * acc`, the position `n * dt * vel` and
`n * (n + 1) / 2 * dt ^ 2 * acc`, and the acceleration is the one at the start. -/
theorem update_iterate_general (p : Particle K) (dt : K) (n : ℕ) :
    ((fun s => Particle.update s dt)^[n] p).acc = p.acc ∧
    ((fun s => Particle.update s dt)^[n] p).vel.x = p.vel.x + n * dt * p.acc.x ∧
    ((fun s => Particle.update s dt)^[n] p).vel.y = p.vel.y + n * dt * p.acc.y ∧
    ((fun s => Particle.update s dt)^[n] p).pos.x =
      p.pos.x + n * dt * p.vel.x + (n * (n + 1) / 2) * dt ^ 2 * p.acc.x ∧
    ((fun s => Particle.update s dt)^[n] p).pos.y =
      p.pos.y + n * dt * p.vel.y + (n * (n + 1) / 2) * dt ^ 2 * p.acc.y := by
  induction n with
  | zero => simp
  | succ k ih =>
    obtain ⟨ha, hvx, hvy, hpx, hpy⟩ := ih
    rw [Function.iterate_succ_apply']
    generalize (fun s => Particle.update s dt)^[k] p = q at ha hvx hvy hpx hpy
    refine ⟨ha, ?_, ?_, ?_, ?_⟩ <;>
      simp only [Particle.update, Vector2.addAssign, Vector2.mul, ha, hvx, hvy, hpx, hpy] <;>
      push_cast <;> ring

/-- C1: `Particle::update(dt)` is a semi-implicit Euler step.  Under exact
arithmetic the new velocity is `vel + acc * dt` and the new position is
`pos + (vel + acc * dt) * dt`: the position is advanced with the velocity
that has already been updated. -/
theorem update_semi_implicit_euler (p : Particle K) (dt : K) :
    (p.update dt).vel = p.vel.add (p.acc.mul dt) ∧
    (p.update dt).pos = p.pos.add ((p.vel.add (p.acc.mul dt)).mul dt) ∧
    (p.update dt).vel.x = p.vel.x + p.acc.x * dt ∧
    (p.update dt).vel.y = p.vel.y + p.acc.y * dt ∧
    (p.update dt).pos.x = p.pos.x + (p.vel.x + p.acc.x * dt) * dt ∧
    (p.update dt).pos.y = p.pos.y + (p.vel.y + p.acc.y * dt) * dt := by
  simp [Particle.update, Vector2.addAssign, Vector2.add, Vector2.mul]

/-- C2: for a particle that starts at rest with acceleration `a` at position
`p0`, after `n` calls of `update dt` (exact arithmetic) the velocity is
`n * dt * a` and the position is `p0 + 0.5 * n * (n + 1) * dt ^ 2 * a`. -/
theorem update_iterate_from_rest (p : Particle K) (dt : K) (n : ℕ)
    (hrest : p.vel = Vector2.zero) :
    ((fun s => Particle.update s dt)^[n] p).vel = p.acc.mul (n * dt) ∧
    ((fun s => Particle.update s dt)^[n] p).pos =
      p.pos.add (p.acc.mul (1 / 2 * n * (n + 1) * dt ^ 2)) := by
  obtain ⟨-, hvx, hvy, hpx, hpy⟩ := update_iterate_general p dt n
  have hx : p.vel.x = 0 := by rw [hrest]; rfl
  have hy : p.vel.y = 0 := by rw [hrest]; rfl
  constructor
  · ext
    · rw [hvx, hx]; simp only [Vector2.mul]; ring
    · rw [hvy, hy]; simp only [Vector2.mul]; ring
  · ext
    · rw [hpx, hx]; simp only [Vector2.add, Vector2.mul]; ring
    · rw [hpy, hy]; simp only [Vector2.add, Vector2.mul]; ring

/-- Witness for C2 at a concrete particle: radius `6`, start `(3, 4)`, at rest,
acceleration `(0, 2)`, three steps of size `1 / 2`. -/
theorem update_iterate_from_rest_witness :
    (⟨6, ⟨3, 4⟩, Vector2.zero, ⟨0, 2⟩, ⟨255, 0, 0, 255⟩⟩ : Particle ℚ).vel = Vector2.zero ∧
    ((fun s => Particle.update s (1 / 2 : ℚ))^[3]
        ⟨6, ⟨3, 4⟩, Vector2.zero, ⟨0, 2⟩, ⟨255, 0, 0, 255⟩⟩).vel
      = (⟨0, 2⟩ : Vector2 ℚ).mul ((3 : ℕ) * (1 / 2)) ∧
    ((fun s => Particle.update s (1 / 2 : ℚ))^[3]
        ⟨6, ⟨3, 4⟩, Vector2.zero, ⟨0, 2⟩, ⟨255, 0, 0, 255⟩⟩).pos
      = (⟨3, 4⟩ : Vector2 ℚ).add
          ((⟨0, 2⟩ : Vector2 ℚ).mul (1 / 2 * (3 : ℕ) * ((3 : ℕ) + 1) * (1 / 2) ^ 2)) :=
  ⟨rfl,
    update_iterate_from_rest ⟨6, ⟨3, 4⟩, Vector2.zero, ⟨0, 2⟩, ⟨255, 0, 0, 255⟩⟩ (1 / 2) 3 rfl⟩

end Integrator

/-! ## Lengths and normalisation over the reals -/

section Lengths

/-- Over the reals `length` is the real square root of the sum of squares. -/
theorem length_eq_sqrt (v : Vector2 ℝ) :
    v.length = Real.sqrt (v.x * v.x + v.y * v.y) :=
  rfl

/-- The sum of squares under the root is not negative. -/
theorem sum_squares_nonneg (v : Vector2 ℝ) : 0 ≤ v.x * v.x + v.y * v.y :=
  add_nonneg (mul_self_nonneg v.x) (mul_self_nonneg v.y)

/-- A length is not negative. -/
theorem length_nonneg (v : Vector2 ℝ) : 0 ≤ v.length :=
  Real.sqrt_nonneg _

/-- The square of the length is the dot product of the vector with itself. -/
theorem length_mul_self (v : Vector2 ℝ) : v.length * v.length = v.dot v := by
  rw [length_eq_sqrt]
  exact Real.mul_self_sqrt (sum_squares_nonneg v)

/-- Only the zero vector has length `0`. -/
theorem length_eq_zero_iff (v : Vector2 ℝ) : v.length = 0 ↔ v = Vector2.zero := by
  rw [length_eq_sqrt, Real.sqrt_eq_zero (sum_squares_nonneg v)]
  constructor
  · intro h
    have hx : v.x * v.x = 0 := by nlinarith [mul_self_nonneg v.x, mul_self_nonneg v.y]
    have hy : v.y * v.y = 0 := by nlinarith [mul_self_nonneg v.x, mul_self_nonneg v.y]
    ext
    · exact mul_self_eq_zero.mp hx
    · exact mul_self_eq_zero.mp hy
  · intro h
    rw [h]
    simp [Vector2.zero]

/-- The length of a vector whose sum of squares is the square of `d ≥ 0`. -/
theorem length_of_sq (v : Vector2 ℝ) (d : ℝ) (hd : 0 ≤ d)
    (h : v.x * v.x + v.y * v.y = d * d) : v.length = d := by
  rw [length_eq_sqrt, h]
  exact Real.sqrt_mul_self hd

/-- Scaling a vector by `s` scales its length by `|s|`. -/
theorem length_mul (v : Vector2 ℝ) (s : ℝ) : (v.mul s).length = |s| * v.length := by
  rw [length_eq_sqrt, length_eq_sqrt]
  simp only [Vector2.mul]
  rw [show v.x * s * (v.x * s) + v.y * s * (v.y * s)
        = (s * s) * (v.x * v.x + v.y * v.y) by ring,
    Real.sqrt_mul (mul_self_nonneg s), Real.sqrt_mul_self_eq_abs]

/-- On a vector of non-zero length `normalized` takes the second branch. -/
theorem normalized_of_length_ne_zero (v : Vector2 ℝ) (h : v.length ≠ 0) :
    v.normalized = ⟨v.x * (1 / v.length), v.y * (1 / v.length)⟩ := by
  simp only [Vector2.normalized, if_neg h]

/-- On a vector of length `0` `normalized` returns `Vector2()`. -/
theorem normalized_of_length_eq_zero (v : Vector2 ℝ) (h : v.length = 0) :
    v.normalized = Vector2.zero := by
  simp only [Vector2.normalized, if_pos h]

/-- The result of `normalized` is the zero vector or has unit square norm. -/
theorem normalized_zero_or_unit (v : Vector2 ℝ) :
    v.normalized = Vector2.zero ∨ v.normalized.dot v.normalized = 1 := by
  by_cases h : v.length = 0
  · exact Or.inl (normalized_of_length_eq_zero v h)
  · right
    rw [normalized_of_length_ne_zero v h]
    have hsq := length_mul_self v
    simp only [Vector2.dot] at hsq ⊢
    field_simp
    linarith

/-- C8: `normalized` applied to the zero vector `(0, 0)` returns the zero
vector.  The quotient `1 / len` formed first is not used on this path, so no
division decides the result. -/
theorem normalized_zero_vector : (⟨0, 0⟩ : Vector2 ℝ).normalized = ⟨0, 0⟩ := by
  have h : (⟨0, 0⟩ : Vector2 ℝ).length = 0 := by
    rw [length_eq_sqrt]
    simp
  exact normalized_of_length_eq_zero _ h

/-- C9: for a non-zero vector `v` the length of `normalized v` is `1`, and
`normalized v` is `v` scaled by `1 / length v` (exact real arithmetic). -/
theorem normalized_unit_length (v : Vector2 ℝ) (hv : v ≠ ⟨0, 0⟩) :
    v.normalized.length = 1 ∧ v.normalized = v.mul (1 / v.length) := by
  have hlen : v.length ≠ 0 := fun h => hv ((length_eq_zero_iff v).mp h)
  have hmul : v.normalized = v.mul (1 / v.length) := by
    rw [normalized_of_length_ne_zero v hlen]
    rfl
  refine ⟨?_, hmul⟩
  have hunit : v.normalized.dot v.normalized = 1 := by
    rcases normalized_zero_or_unit v with h0 | h1
    · exfalso
      rw [hmul] at h0
      have hx : v.x * (1 / v.length) = 0 := congrArg Vector2.x h0
      have hy : v.y * (1 / v.length) = 0 := congrArg Vector2.y h0
      have hinv : (1 / v.length) ≠ 0 := one_div_ne_zero hlen
      apply hv
      ext
      · exact (mul_eq_zero.mp hx).resolve_right hinv
      · exact (mul_eq_zero.mp hy).resolve_right hinv
    · exact h1
  rw [length_eq_sqrt]
  simp only [Vector2.dot] at hunit
  rw [hunit, Real.sqrt_one]

/-- Witness for C9 at the vector `(3, 4)`, whose length is `5`. -/
theorem normalized_unit_length_witness :
    (⟨3, 4⟩ : Vector2 ℝ) ≠ ⟨0, 0⟩ ∧
      (⟨3, 4⟩ : Vector2 ℝ).normalized.length = 1 ∧
      (⟨3, 4⟩ : Vector2 ℝ).normalized
        = (⟨3, 4⟩ : Vector2 ℝ).mul (1 / (⟨3, 4⟩ : Vector2 ℝ).length) :=
  have hne : (⟨3, 4⟩ : Vector2 ℝ) ≠ ⟨0, 0⟩ := by
    intro h
    have hx : (3 : ℝ) = 0 := congrArg Vector2.x h
    norm_num at hx
  ⟨hne, normalized_unit_length ⟨3, 4⟩ hne⟩

end Lengths

/-! ## The boundary test `Circle::checkCollision` -/

section Detection

/-- The test of `checkCollision`, as a proposition on the squared distance. -/
theorem checkCollision_iff {K : Type} [LinearOrderedField K] (c : Circle K)
    (p : Particle K) :
    c.checkCollision p = true ↔
      (c.radius - p.radius) * (c.radius - p.radius)
        < (p.pos.sub c.pos).dot (p.pos.sub c.pos) := by
  simp [Circle.checkCollision]

/-- C3 (amended): taking arithmetic as exact (real numbers), for a boundary of
radius `R` and a particle of radius `r` with `0 ≤ r ≤ R`, `checkCollision` is
false when the particle is at distance exactly `R - r` from the centre and
true when its distance is strictly greater. -/
theorem checkCollision_threshold (c : Circle ℝ) (p : Particle ℝ)
    (_hr : 0 ≤ p.radius) (hrR : p.radius ≤ c.radius) :
    ((p.pos.sub c.pos).length = c.radius - p.radius → c.checkCollision p = false) ∧
    (c.radius - p.radius < (p.pos.sub c.pos).length → c.checkCollision p = true) := by
  have hsq := length_mul_self (p.pos.sub c.pos)
  have hlen := length_nonneg (p.pos.sub c.pos)
  constructor
  · intro heq
    rw [Bool.eq_false_iff]
    intro hcol
    rw [checkCollision_iff, ← hsq, heq] at hcol
    exact lt_irrefl _ hcol
  · intro hlt
    rw [checkCollision_iff, ← hsq]
    have hgap : 0 ≤ c.radius - p.radius := sub_nonneg.mpr hrR
    nlinarith

/-- Witness for the amended C3: boundary of radius `10` at the origin, particle of radius
`4`; at `(6, 0)` the distance is `R - r = 6` and the test is false, at `(7, 0)`
the distance is `7` and the test is true. -/
theorem checkCollision_threshold_witness :
    ((0 : ℝ) ≤ 4 ∧ (4 : ℝ) ≤ 10) ∧
    (⟨⟨0, 0⟩, 10⟩ : Circle ℝ).checkCollision
        ⟨4, ⟨6, 0⟩, ⟨0, 0⟩, ⟨0, 2⟩, ⟨255, 0, 0, 255⟩⟩ = false ∧
    (⟨⟨0, 0⟩, 10⟩ : Circle ℝ).checkCollision
        ⟨4, ⟨7, 0⟩, ⟨0, 0⟩, ⟨0, 2⟩, ⟨255, 0, 0, 255⟩⟩ = true :=
  have h6 : ((⟨6, 0⟩ : Vector2 ℝ).sub ⟨0, 0⟩).length = 6 :=
    length_of_sq _ 6 (by norm_num) (by simp only [Vector2.sub]; norm_num)
  have h7 : ((⟨7, 0⟩ : Vector2 ℝ).sub ⟨0, 0⟩).length = 7 :=
    length_of_sq _ 7 (by norm_num) (by simp only [Vector2.sub]; norm_num)
  ⟨⟨by norm_num, by norm_num⟩,
    (checkCollision_threshold ⟨⟨0, 0⟩, 10⟩ ⟨4, ⟨6, 0⟩, ⟨0, 0⟩, ⟨0, 2⟩, ⟨255, 0, 0, 255⟩⟩
      (by norm_num) (by norm_num)).1 (by rw [h6]; norm_num),
    (checkCollision_threshold ⟨⟨0, 0⟩, 10⟩ ⟨4, ⟨7, 0⟩, ⟨0, 0⟩, ⟨0, 2⟩, ⟨255, 0, 0, 255⟩⟩
      (by norm_num) (by norm_num)).2 (by rw [h7]; norm_num)⟩

end Detection

/-! ## The boundary response `Circle::handleCollision` -/

section Response

/-- C4: `handleCollision` stores the velocity `v - n * 2 * dot(v, n)`, where
`closest = c + normalized(p - c) * R` and `n = normalized(p - closest)`. -/
theorem handleCollision_velocity {K : Type} [LinearOrderedField K] [HasSqrt K]
    (c : Circle K) (p : Particle K) :
    (c.closestPointOnCircle p.pos
        = c.pos.add ((p.pos.sub c.pos).normalized.mul c.radius)) ∧
    ((c.handleCollision p).vel
        = p.vel.sub
            (((p.pos.sub (c.pos.add ((p.pos.sub c.pos).normalized.mul c.radius))).normalized.mul
                2).mul
              (p.vel.dot
                (p.pos.sub (c.pos.add ((p.pos.sub c.pos).normalized.mul c.radius))).normalized))) ∧
    ((c.handleCollision p).vel.x
        = p.vel.x
          - (p.pos.sub (c.closestPointOnCircle p.pos)).normalized.x * 2
            * (p.vel.x * (p.pos.sub (c.closestPointOnCircle p.pos)).normalized.x
              + p.vel.y * (p.pos.sub (c.closestPointOnCircle p.pos)).normalized.y)) ∧
    ((c.handleCollision p).vel.y
        = p.vel.y
          - (p.pos.sub (c.closestPointOnCircle p.pos)).normalized.y * 2
            * (p.vel.x * (p.pos.sub (c.closestPointOnCircle p.pos)).normalized.x
              + p.vel.y * (p.pos.sub (c.closestPointOnCircle p.pos)).normalized.y)) :=
  ⟨rfl, rfl, rfl, rfl⟩

/-- Reflecting `v` about a vector `n` that is zero or of unit square norm does
not change the square norm of `v`. -/
theorem reflect_dot_self (v n : Vector2 ℝ)
    (hn : n = Vector2.zero ∨ n.dot n = 1) :
    (v.sub ((n.mul 2).mul (v.dot n))).dot (v.sub ((n.mul 2).mul (v.dot n)))
      = v.dot v := by
  rcases hn with h0 | h1
  · rw [h0]
    simp [Vector2.sub, Vector2.mul, Vector2.dot, Vector2.zero]
  · simp only [Vector2.sub, Vector2.mul, Vector2.dot] at h1 ⊢
    have key : (v.x - n.x * 2 * (v.x * n.x + v.y * n.y)) * (v.x - n.x * 2 * (v.x * n.x + v.y * n.y))
        + (v.y - n.y * 2 * (v.x * n.x + v.y * n.y)) * (v.y - n.y * 2 * (v.x * n.x + v.y * n.y))
        = v.x * v.x + v.y * v.y
          + 4 * (v.x * n.x + v.y * n.y) ^ 2 * ((n.x * n.x + n.y * n.y) - 1) := by
      ring
    rw [key, h1]
    ring

/-- C5: reflection preserves speed.  For every boundary and every particle the
length of the velocity after `handleCollision` equals its length before (exact
arithmetic). -/
theorem handleCollision_preserves_speed (c : Circle ℝ) (p : Particle ℝ) :
    (c.handleCollision p).vel.length = p.vel.length := by
  have h := reflect_dot_self p.vel (p.pos.sub (c.closestPointOnCircle p.pos)).normalized
    (normalized_zero_or_unit _)
  rw [length_eq_sqrt, length_eq_sqrt]
  exact congrArg Real.sqrt h

/-- C7: `handleCollision` changes only the velocity: position, acceleration,
radius and colour of the particle are the ones it had before, so no position
correction moves the particle back inside. -/
theorem handleCollision_frame {K : Type} [LinearOrderedField K] [HasSqrt K]
    (c : Circle K) (p : Particle K) :
    (c.handleCollision p).pos = p.pos ∧ (c.handleCollision p).acc = p.acc ∧
      (c.handleCollision p).radius = p.radius ∧ (c.handleCollision p).color = p.color :=
  ⟨rfl, rfl, rfl, rfl⟩

/-- Away from the centre, the vector from the closest point of the circumference
to the particle is the radial vector `p - c` scaled by `1 - R / |p - c|`. -/
theorem sub_closestPointOnCircle (c : Circle ℝ) (point : Vector2 ℝ)
    (hd : (point.sub c.pos).length ≠ 0) :
    point.sub (c.closestPointOnCircle point)
      = (point.sub c.pos).mul (1 - c.radius / (point.sub c.pos).length) := by
  simp only [Circle.closestPointOnCircle]
  rw [normalized_of_length_ne_zero _ hd]
  ext
  · simp only [Vector2.sub, Vector2.add, Vector2.mul]
    field_simp
    ring
  · simp only [Vector2.sub, Vector2.add, Vector2.mul]
    field_simp
    ring

/-- Normalising a scaled vector: for `v` of non-zero length and `s ≠ 0`,
`normalized (v * s)` is `normalized v` times the sign `s / |s|`. -/
theorem normalized_mul (v : Vector2 ℝ) (s : ℝ) (hv : v.length ≠ 0) (hs : s ≠ 0) :
    (v.mul s).normalized = v.normalized.mul (s / |s|) := by
  have habs : |s| ≠ 0 := abs_ne_zero.mpr hs
  have hlen : (v.mul s).length ≠ 0 := by
    rw [length_mul]
    exact mul_ne_zero habs hv
  rw [normalized_of_length_ne_zero _ hlen, normalized_of_length_ne_zero _ hv, length_mul]
  ext
  · simp only [Vector2.mul]
    field_simp
    exact Or.inl (mul_comm _ _)
  · simp only [Vector2.mul]
    field_simp
    exact Or.inl (mul_comm _ _)

/-- The reflection computed by `handleCollision` depends only on the radial
direction: when the particle is neither at the centre nor on the circumference
the stored velocity is `v - u * 2 * dot(v, u)` with `u = normalized(p - c)`. -/
theorem handleCollision_radial (c : Circle ℝ) (p : Particle ℝ)
    (hd : (p.pos.sub c.pos).length ≠ 0)
    (hR : (p.pos.sub c.pos).length ≠ c.radius) :
    (c.handleCollision p).vel
      = p.vel.sub (((p.pos.sub c.pos).normalized.mul 2).mul
          (p.vel.dot (p.pos.sub c.pos).normalized)) := by
  have hs : 1 - c.radius / (p.pos.sub c.pos).length ≠ 0 := by
    intro h
    apply hR
    field_simp at h
    linarith
  have hsign : (1 - c.radius / (p.pos.sub c.pos).length)
        / |1 - c.radius / (p.pos.sub c.pos).length|
      * ((1 - c.radius / (p.pos.sub c.pos).length)
        / |1 - c.radius / (p.pos.sub c.pos).length|) = 1 := by
    have habs : |1 - c.radius / (p.pos.sub c.pos).length| ≠ 0 := abs_ne_zero.mpr hs
    rw [div_mul_div_comm, abs_mul_abs_self]
    exact div_self (mul_ne_zero hs hs)
  simp only [Circle.handleCollision]
  rw [sub_closestPointOnCircle c p.pos hd, normalized_mul _ _ hd hs]
  generalize (1 - c.radius / (p.pos.sub c.pos).length)
    / |1 - c.radius / (p.pos.sub c.pos).length| = σ at hsign
  generalize (p.pos.sub c.pos).normalized = u
  ext
  · simp only [Vector2.sub, Vector2.mul, Vector2.dot]
    linear_combination (-2 * u.x * (p.vel.x * u.x + p.vel.y * u.y)) * hsign
  · simp only [Vector2.sub, Vector2.mul, Vector2.dot]
    linear_combination (-2 * u.y * (p.vel.x * u.x + p.vel.y * u.y)) * hsign

/-- The exact-arithmetic part of the counterexample for C6: boundary of radius
`4` at the origin, a particle of radius `1` at `(4, 0)`, on the circumference, with the outward
velocity `(4, 0) = 1 * (p - c)`.  `checkCollision` is true (`16 > 9`), the
closest point of the circumference is the particle's own position, the normal
is `normalized (0, 0) = (0, 0)`, and `handleCollision` stores the velocity
`(4, 0)` again, not `(-4, 0)`. -/
theorem handleCollision_outward_on_circumference :
    (⟨⟨0, 0⟩, 4⟩ : Circle ℝ).checkCollision
        ⟨1, ⟨4, 0⟩, ⟨4, 0⟩, ⟨0, 2⟩, ⟨255, 0, 0, 255⟩⟩ = true ∧
    (0 : ℝ) < 1 ∧
    (⟨4, 0⟩ : Vector2 ℝ) ≠ ⟨0, 0⟩ ∧
    (⟨4, 0⟩ : Vector2 ℝ) = ((⟨4, 0⟩ : Vector2 ℝ).sub ⟨0, 0⟩).mul 1 ∧
    ((⟨⟨0, 0⟩, 4⟩ : Circle ℝ).handleCollision
        ⟨1, ⟨4, 0⟩, ⟨4, 0⟩, ⟨0, 2⟩, ⟨255, 0, 0, 255⟩⟩).vel = ⟨4, 0⟩ ∧
    ((⟨⟨0, 0⟩, 4⟩ : Circle ℝ).handleCollision
        ⟨1, ⟨4, 0⟩, ⟨4, 0⟩, ⟨0, 2⟩, ⟨255, 0, 0, 255⟩⟩).vel ≠ ⟨-4, -0⟩ := by
  have hw : ((⟨4, 0⟩ : Vector2 ℝ).sub ⟨0, 0⟩).length = 4 :=
    length_of_sq _ 4 (by norm_num) (by simp only [Vector2.sub]; norm_num)
  have hclosest : (⟨⟨0, 0⟩, 4⟩ : Circle ℝ).closestPointOnCircle ⟨4, 0⟩ = ⟨4, 0⟩ := by
    simp only [Circle.closestPointOnCircle]
    rw [normalized_of_length_ne_zero _ (by rw [hw]; norm_num), hw]
    ext <;> simp [Vector2.add, Vector2.mul, Vector2.sub]
  have hnormal : ((⟨4, 0⟩ : Vector2 ℝ).sub ⟨4, 0⟩).normalized = Vector2.zero :=
    normalized_of_length_eq_zero _
      (length_of_sq _ 0 le_rfl (by simp only [Vector2.sub]; norm_num))
  have hvel : ((⟨⟨0, 0⟩, 4⟩ : Circle ℝ).handleCollision
      ⟨1, ⟨4, 0⟩, ⟨4, 0⟩, ⟨0, 2⟩, ⟨255, 0, 0, 255⟩⟩).vel = ⟨4, 0⟩ := by
    simp only [Circle.handleCollision, hclosest, hnormal]
    ext <;> simp [Vector2.sub, Vector2.mul, Vector2.dot, Vector2.zero]
  refine ⟨?_, by norm_num, ?_, ?_, hvel, ?_⟩
  · rw [checkCollision_iff]
    simp only [Vector2.sub, Vector2.dot]
    norm_num
  · intro h
    have hx : (4 : ℝ) = 0 := congrArg Vector2.x h
    norm_num at hx
  · ext <;> simp [Vector2.sub, Vector2.mul]
  · rw [hvel]
    intro h
    have hx : (4 : ℝ) = -4 := congrArg Vector2.x h
    norm_num at hx

/-- C6 (amended): taking arithmetic as exact (real numbers), for a boundary
with centre `c` and radius `R` and a particle for which `checkCollision` is
true, whose velocity points outward along the radius (`v = k * (p - c)` with
`k > 0` and `p ≠ c`) and which is not exactly on the circumference
(`|p - c| ≠ R`), `handleCollision` stores exactly `-v`. -/
theorem handleCollision_outward_bounce (c : Circle ℝ) (p : Particle ℝ) (k : ℝ)
    (_hcol : c.checkCollision p = true) (_hk : 0 < k) (hpc : p.pos ≠ c.pos)
    (hv : p.vel = (p.pos.sub c.pos).mul k)
    (hrim : (p.pos.sub c.pos).length ≠ c.radius) :
    (c.handleCollision p).vel = ⟨-p.vel.x, -p.vel.y⟩ := by
  have hd : (p.pos.sub c.pos).length ≠ 0 := by
    intro h
    apply hpc
    have hz := (length_eq_zero_iff _).mp h
    have hx : p.pos.x - c.pos.x = 0 := congrArg Vector2.x hz
    have hy : p.pos.y - c.pos.y = 0 := congrArg Vector2.y hz
    ext
    · linarith
    · linarith
  rw [handleCollision_radial c p hd hrim, normalized_of_length_ne_zero _ hd, hv]
  have hsq := length_mul_self (p.pos.sub c.pos)
  simp only [Vector2.dot] at hsq
  generalize (p.pos.sub c.pos).length = d at hd hsq
  generalize p.pos.sub c.pos = w at hsq
  ext
  · simp only [Vector2.sub, Vector2.mul, Vector2.dot]
    field_simp
    linear_combination (2 * k * w.x) * hsq
  · simp only [Vector2.sub, Vector2.mul, Vector2.dot]
    field_simp
    linear_combination (2 * k * w.y) * hsq

/-- Witness for the amended C6: boundary of radius `4` at the origin, particle
of radius `1` at `(5, 0)` with velocity `(5, 0)`; the stored velocity is
`(-5, 0)`. -/
theorem handleCollision_outward_bounce_witness :
    (⟨⟨0, 0⟩, 4⟩ : Circle ℝ).checkCollision
        ⟨1, ⟨5, 0⟩, ⟨5, 0⟩, ⟨0, 2⟩, ⟨255, 0, 0, 255⟩⟩ = true ∧
    ((⟨5, 0⟩ : Vector2 ℝ).sub ⟨0, 0⟩).length ≠ 4 ∧
    ((⟨⟨0, 0⟩, 4⟩ : Circle ℝ).handleCollision
        ⟨1, ⟨5, 0⟩, ⟨5, 0⟩, ⟨0, 2⟩, ⟨255, 0, 0, 255⟩⟩).vel = ⟨-5, -0⟩ :=
  have hw : ((⟨5, 0⟩ : Vector2 ℝ).sub ⟨0, 0⟩).length = 5 :=
    length_of_sq _ 5 (by norm_num) (by simp only [Vector2.sub]; norm_num)
  have hcol : (⟨⟨0, 0⟩, 4⟩ : Circle ℝ).checkCollision
      ⟨1, ⟨5, 0⟩, ⟨5, 0⟩, ⟨0, 2⟩, ⟨255, 0, 0, 255⟩⟩ = true := by
    rw [checkCollision_iff]
    simp only [Vector2.sub, Vector2.dot]
    norm_num
  have hrim : ((⟨5, 0⟩ : Vector2 ℝ).sub ⟨0, 0⟩).length ≠ 4 := by
    rw [hw]
    norm_num
  ⟨hcol, hrim,
    handleCollision_outward_bounce ⟨⟨0, 0⟩, 4⟩ ⟨1, ⟨5, 0⟩, ⟨5, 0⟩, ⟨0, 2⟩, ⟨255, 0, 0, 255⟩⟩ 1
      hcol (by norm_num)
      (by
        intro h
        have hx : (5 : ℝ) = 0 := congrArg Vector2.x h
        norm_num at hx)
      (by ext <;> simp [Vector2.sub, Vector2.mul])
      hrim⟩

end Response

/-! ## The colour conversion `HSVtoRGB` -/

section Colour

variable {K : Type} [LinearOrderedField K] [FloorRing K]

/-- On a non-negative integer value `static_cast<int>` returns that integer. -/
theorem truncToInt_natCast (n : ℕ) : truncToInt (n : K) = n := by
  simp [truncToInt]

/-- C10: `HSVtoRGB` maps the primary hues to the primary colours, whatever the
outputs held before: `HSVtoRGB(0,1,1) = (1,0,0)`, `HSVtoRGB(120,1,1) = (0,1,0)`
and `HSVtoRGB(240,1,1) = (0,0,1)`. -/
theorem HSVtoRGB_primary_hues (rgb : K × K × K) :
    HSVtoRGB (0 : K) 1 1 rgb = (1, 0, 0) ∧
    HSVtoRGB (120 : K) 1 1 rgb = (0, 1, 0) ∧
    HSVtoRGB (240 : K) 1 1 rgb = (0, 0, 1) := by
  have h0 : truncToInt ((0 : K) / 60) = 0 := by
    have := truncToInt_natCast (K := K) 0
    simpa using this
  have h2 : truncToInt ((120 : K) / 60) = 2 := by
    have := truncToInt_natCast (K := K) 2
    rw [show (120 : K) / 60 = ((2 : ℕ) : K) by norm_num]
    simpa using this
  have h4 : truncToInt ((240 : K) / 60) = 4 := by
    have := truncToInt_natCast (K := K) 4
    rw [show (240 : K) / 60 = ((4 : ℕ) : K) by norm_num]
    simpa using this
  have t0 : Int.tmod 0 6 = 0 := by decide
  have t2 : Int.tmod 2 6 = 2 := by decide
  have t4 : Int.tmod 4 6 = 4 := by decide
  refine ⟨?_, ?_, ?_⟩
  · simp only [HSVtoRGB, h0, t0]
    norm_num
  · simp only [HSVtoRGB, h2, t2]
    norm_num
  · simp only [HSVtoRGB, h4, t4]
    norm_num

end Colour

/-! ## Hue wrap and range of `HSVtoRGB` -/

section ColourRange

/-- The product of two numbers of the unit interval is in the unit interval. -/
theorem unit_interval_mul {K : Type} [LinearOrderedField K] (a b : K) (ha0 : 0 ≤ a)
    (ha1 : a ≤ 1) (hb0 : 0 ≤ b) (hb1 : b ≤ 1) : 0 ≤ a * b ∧ a * b ≤ 1 := by
  constructor
  · exact mul_nonneg ha0 hb0
  · nlinarith

variable {K : Type} [LinearOrderedField K] [FloorRing K]

/-- For a hue in `[0, 360)` the sector `static_cast<int>(h / 60) % 6` is the
floor of `h / 60`, one of `0 .. 5`, and `h / 60` minus the sector is in `[0, 1)`. -/
theorem sector_of_hue (h : K) (hh0 : 0 ≤ h) (hh : h < 360) :
    (truncToInt (h / 60)).tmod 6 = ⌊h / 60⌋ ∧ 0 ≤ ⌊h / 60⌋ ∧ ⌊h / 60⌋ ≤ 5 ∧
      0 ≤ h / 60 - ((⌊h / 60⌋ : Int) : K) ∧ h / 60 - ((⌊h / 60⌋ : Int) : K) < 1 := by
  have hx0 : 0 ≤ h / 60 := div_nonneg hh0 (by norm_num)
  have hx6 : h / 60 < ((6 : Int) : K) := by
    rw [div_lt_iff₀ (by norm_num)]
    push_cast
    linarith
  have hf0 : 0 ≤ ⌊h / 60⌋ := Int.floor_nonneg.mpr hx0
  have hf6 : ⌊h / 60⌋ < 6 := Int.floor_lt.mpr hx6
  have htr : truncToInt (h / 60) = ⌊h / 60⌋ := by
    simp only [truncToInt, if_pos hx0]
  refine ⟨?_, hf0, by omega, ?_, ?_⟩
  · rw [htr]
    exact Int.tmod_eq_of_lt hf0 hf6
  · linarith [Int.floor_le (h / 60)]
  · linarith [Int.lt_floor_add_one (h / 60)]

/-- The value of `HSVtoRGB` at the full turn: the sector wraps to `0` but the
fraction `f` is taken against the wrapped sector and is `6`, so `t = 6`. -/
theorem HSVtoRGB_full_turn_value (rgb : K × K × K) :
    HSVtoRGB (360 : K) 1 1 rgb = (1, 6, 0) := by
  have h6 : truncToInt ((360 : K) / 60) = 6 := by
    have := truncToInt_natCast (K := K) 6
    rw [show (360 : K) / 60 = ((6 : ℕ) : K) by norm_num]
    simpa using this
  have t6 : Int.tmod 6 6 = 0 := by decide
  simp only [HSVtoRGB, h6, t6]
  norm_num

/-- The value of `HSVtoRGB` at hue `0`. -/
theorem HSVtoRGB_zero_value (rgb : K × K × K) :
    HSVtoRGB (0 : K) 1 1 rgb = (1, 0, 0) := by
  have h0 : truncToInt ((0 : K) / 60) = 0 := by
    have := truncToInt_natCast (K := K) 0
    simpa using this
  have t0 : Int.tmod 0 6 = 0 := by decide
  simp only [HSVtoRGB, h0, t0]
  norm_num

/-- C11 (the code at the input where the claim fails): `HSVtoRGB(360,1,1)`
returns `(1, 6, 0)`, which is not the `(1, 0, 0)` returned by
`HSVtoRGB(0,1,1)`: the hue does not wrap at a full turn. -/
theorem HSVtoRGB_full_turn_differs (rgb : K × K × K) :
    HSVtoRGB (360 : K) 1 1 rgb = (1, 6, 0) ∧
    HSVtoRGB (0 : K) 1 1 rgb = (1, 0, 0) ∧
    HSVtoRGB (360 : K) 1 1 rgb ≠ HSVtoRGB (0 : K) 1 1 rgb := by
  refine ⟨HSVtoRGB_full_turn_value rgb, HSVtoRGB_zero_value rgb, ?_⟩
  rw [HSVtoRGB_full_turn_value, HSVtoRGB_zero_value]
  intro h
  have h2 : (6 : K) = 0 := congrArg (fun t => t.2.1) h
  norm_num at h2

/-- C12: for a hue `h` with `0 ≤ h < 360` and saturation and value in `[0, 1]`
the sector index computed by `HSVtoRGB` is one of `0 .. 5`, so a `case` assigns
all three outputs (the result does not depend on what they held), and each of
`r`, `g`, `b` lies in `[0, 1]`. -/
theorem HSVtoRGB_range (h s v : K) (rgb : K × K × K) (hh0 : 0 ≤ h) (hh : h < 360)
    (hs0 : 0 ≤ s) (hs1 : s ≤ 1) (hv0 : 0 ≤ v) (hv1 : v ≤ 1) :
    (0 ≤ (truncToInt (h / 60)).tmod 6 ∧ (truncToInt (h / 60)).tmod 6 ≤ 5) ∧
    (∀ other : K × K × K, HSVtoRGB h s v other = HSVtoRGB h s v rgb) ∧
    (0 ≤ (HSVtoRGB h s v rgb).1 ∧ (HSVtoRGB h s v rgb).1 ≤ 1) ∧
    (0 ≤ (HSVtoRGB h s v rgb).2.1 ∧ (HSVtoRGB h s v rgb).2.1 ≤ 1) ∧
    (0 ≤ (HSVtoRGB h s v rgb).2.2 ∧ (HSVtoRGB h s v rgb).2.2 ≤ 1) := by
  obtain ⟨hi, hi0, hi5, hf0, hf1⟩ := sector_of_hue h hh0 hh
  have hp := unit_interval_mul v (1 - s) hv0 hv1 (by linarith) (by linarith)
  have hfs := unit_interval_mul (h / 60 - ((⌊h / 60⌋ : Int) : K)) s hf0 hf1.le hs0 hs1
  have hq := unit_interval_mul v (1 - (h / 60 - ((⌊h / 60⌋ : Int) : K)) * s) hv0 hv1
    (by linarith [hfs.2]) (by linarith [hfs.1])
  have hgs := unit_interval_mul (1 - (h / 60 - ((⌊h / 60⌋ : Int) : K))) s
    (by linarith) (by linarith) hs0 hs1
  have ht := unit_interval_mul v (1 - (1 - (h / 60 - ((⌊h / 60⌋ : Int) : K))) * s) hv0 hv1
    (by linarith [hgs.2]) (by linarith [hgs.1])
  have hvv : 0 ≤ v ∧ v ≤ 1 := ⟨hv0, hv1⟩
  refine ⟨by rw [hi]; exact ⟨hi0, hi5⟩, ?_, ?_⟩
  · intro other
    simp only [HSVtoRGB, hi]
    have hcases : ⌊h / 60⌋ = 0 ∨ ⌊h / 60⌋ = 1 ∨ ⌊h / 60⌋ = 2 ∨ ⌊h / 60⌋ = 3 ∨
        ⌊h / 60⌋ = 4 ∨ ⌊h / 60⌋ = 5 := by omega
    rcases hcases with h0 | h0 | h0 | h0 | h0 | h0 <;> simp [h0]
  · simp only [HSVtoRGB, hi]
    split_ifs <;>
      first
        | exact ⟨hvv, ht, hp⟩
        | exact ⟨hq, hvv, hp⟩
        | exact ⟨hp, hvv, ht⟩
        | exact ⟨hp, hq, hvv⟩
        | exact ⟨ht, hp, hvv⟩
        | exact ⟨hvv, hp, hq⟩
        | omega

/-- Witness for C12 at hue `90` with saturation and value `1 / 2`: sector `1`,
`f = 1 / 2`, and the colour is `(3 / 8, 1 / 2, 1 / 4)`. -/
theorem HSVtoRGB_range_witness :
    ((0 : ℚ) ≤ 90 ∧ (90 : ℚ) < 360 ∧ (0 : ℚ) ≤ 1 / 2 ∧ (1 / 2 : ℚ) ≤ 1) ∧
    (0 ≤ (truncToInt ((90 : ℚ) / 60)).tmod 6 ∧ (truncToInt ((90 : ℚ) / 60)).tmod 6 ≤ 5) ∧
    (∀ other : ℚ × ℚ × ℚ,
      HSVtoRGB (90 : ℚ) (1 / 2) (1 / 2) other = HSVtoRGB (90 : ℚ) (1 / 2) (1 / 2) (0, 0, 0)) ∧
    (0 ≤ (HSVtoRGB (90 : ℚ) (1 / 2) (1 / 2) (0, 0, 0)).1 ∧
      (HSVtoRGB (90 : ℚ) (1 / 2) (1 / 2) (0, 0, 0)).1 ≤ 1) ∧
    (0 ≤ (HSVtoRGB (90 : ℚ) (1 / 2) (1 / 2) (0, 0, 0)).2.1 ∧
      (HSVtoRGB (90 : ℚ) (1 / 2) (1 / 2) (0, 0, 0)).2.1 ≤ 1) ∧
    (0 ≤ (HSVtoRGB (90 : ℚ) (1 / 2) (1 / 2) (0, 0, 0)).2.2 ∧
      (HSVtoRGB (90 : ℚ) (1 / 2) (1 / 2) (0, 0, 0)).2.2 ≤ 1) :=
  ⟨⟨by norm_num, by norm_num, by norm_num, by norm_num⟩,
    HSVtoRGB_range 90 (1 / 2) (1 / 2) (0, 0, 0) (by norm_num) (by norm_num) (by norm_num)
      (by norm_num) (by norm_num) (by norm_num)⟩

end ColourRange

/-! ## The initial placement `placeDotsInCircle` -/

section Placement

/-- The angle `i * (360 / N)` of pass `i < N` lies in `[0, 360)`. -/
theorem angle_range {K : Type} [LinearOrderedField K] (numDots : Int) (i : ℕ) (hi : (i : Int) < numDots) :
    0 ≤ (i : K) * (360 / (numDots : K)) ∧ (i : K) * (360 / (numDots : K)) < 360 := by
  have hcast : (i : K) < (numDots : K) := by
    have h := (Int.cast_lt (R := K)).mpr hi
    simpa using h
  have hi0 : (0 : K) ≤ (i : K) := Nat.cast_nonneg i
  have hN : (0 : K) < (numDots : K) := lt_of_le_of_lt hi0 hcast
  constructor
  · exact mul_nonneg hi0 (div_nonneg (by norm_num) hN.le)
  · rw [← mul_div_assoc, div_lt_iff₀ hN]
    linarith

variable {K : Type} [LinearOrderedField K] [FloorRing K] [HasTrig K]

/-- The loop of `placeDotsInCircle` entered at counter `i` with `n` passes left
appends, for `j = 0 .. n - 1`, the particle built from `angle + j * (360 / numDots)`. -/
theorem placeDotsLoop_eq (radius : K) (numDots : Int) (initPos : Vector2 K)
    (uninit : K × K × K) (n : ℕ) :
    ∀ (i : Int) (angle : K) (coordinates : List (Particle K)),
      (numDots - i).toNat = n →
      placeDotsLoop radius numDots initPos uninit i angle coordinates
        = coordinates ++ (List.range n).map
            (fun (j : ℕ) => dotAt radius initPos uninit (angle + (j : K) * (360 / (numDots : K)))) := by
  induction n with
  | zero =>
    intro i angle coordinates hn
    have hi : ¬ i < numDots := by omega
    rw [placeDotsLoop, if_neg hi]
    simp
  | succ k ih =>
    intro i angle coordinates hn
    have hi : i < numDots := by omega
    rw [placeDotsLoop, if_pos hi]
    simp only []
    rw [ih (i + 1) _ _ (by omega), List.range_succ_eq_map, List.map_cons, List.map_map,
      List.append_assoc]
    congr 1
    simp only [List.singleton_append, Nat.cast_zero, zero_mul, add_zero]
    congr 1
    apply List.map_congr_left
    intro j _
    simp only [Function.comp_apply, Nat.cast_succ]
    congr 1
    ring

/-- The result of `placeDotsInCircle` as a list indexed by the pass number. -/
theorem placeDotsInCircle_eq (radius : K) (numDots : Int) (initPos : Vector2 K)
    (uninit : K × K × K) :
    placeDotsInCircle radius numDots initPos uninit
      = (List.range numDots.toNat).map
          (fun (j : ℕ) => dotAt radius initPos uninit ((j : K) * (360 / (numDots : K)))) := by
  rw [placeDotsInCircle, placeDotsLoop_eq radius numDots initPos uninit numDots.toNat 0 0 []
    (by simp)]
  simp

/-- C13: `placeDotsInCircle(radius, numDots, initPos)` returns exactly
`numDots` particles when `numDots ≥ 0`, and the empty sequence when
`numDots ≤ 0` (the loop body, which holds the division `360.0 / numDots`, is
not entered). -/
theorem placeDotsInCircle_count (radius : K) (numDots : Int) (initPos : Vector2 K)
    (uninit : K × K × K) :
    (0 ≤ numDots →
      ((placeDotsInCircle radius numDots initPos uninit).length : Int) = numDots) ∧
    (numDots ≤ 0 → placeDotsInCircle radius numDots initPos uninit = []) := by
  constructor
  · intro h
    rw [placeDotsInCircle_eq, List.length_map, List.length_range]
    exact Int.toNat_of_nonneg h
  · intro h
    have hi : ¬ (0 : Int) < numDots := by omega
    rw [placeDotsInCircle, placeDotsLoop, if_neg hi]

/-- Witness for C13: four particles for `numDots = 4`, none for `numDots = -3`. -/
theorem placeDotsInCircle_count_witness :
    ((placeDotsInCircle (150 : ℝ) 4 ⟨1000, 667⟩ (0, 0, 0)).length : Int) = 4 ∧
    placeDotsInCircle (150 : ℝ) (-3) ⟨1000, 667⟩ (0, 0, 0) = [] :=
  ⟨(placeDotsInCircle_count (150 : ℝ) 4 ⟨1000, 667⟩ (0, 0, 0)).1 (by norm_num),
    (placeDotsInCircle_count (150 : ℝ) (-3) ⟨1000, 667⟩ (0, 0, 0)).2 (by norm_num)⟩

/-- The particle at index `i` of the result of `placeDotsInCircle`, for
`0 ≤ i < numDots`, is the one built from the angle `i * (360 / numDots)`. -/
theorem placeDotsInCircle_getElem (radius : K) (numDots : Int) (initPos : Vector2 K)
    (uninit : K × K × K) (i : ℕ) (hi : (i : Int) < numDots) :
    (placeDotsInCircle radius numDots initPos uninit)[i]?
      = some (dotAt radius initPos uninit ((i : K) * (360 / (numDots : K)))) := by
  have hlt : i < numDots.toNat := by omega
  rw [placeDotsInCircle_eq, List.getElem?_map, List.getElem?_range hlt]
  rfl

/-- C15: for `N ≥ 1` and `0 ≤ i < N` the `i`-th particle returned by
`placeDotsInCircle(R, N, C)` is built from `angle_i = i * (360 / N)` degrees,
which lies in `[0, 360)`: its position is
`C + (R * cos(angle_i * pi / 180), R * sin(angle_i * pi / 180))`, its colour is
`getColor(angle_i)`, its velocity is `(0, 0)` and its acceleration is the
constant `(0, 2)`. -/
theorem placeDotsInCircle_particle (radius : K) (numDots : Int) (initPos : Vector2 K)
    (uninit : K × K × K) (i : ℕ) (hN : 1 ≤ numDots) (hi : (i : Int) < numDots) :
    ∃ particle : Particle K,
      (placeDotsInCircle radius numDots initPos uninit)[i]? = some particle ∧
      particle.pos = initPos.add
        ⟨radius * HasTrig.cos ((i : K) * (360 / (numDots : K)) * HasTrig.pi / 180),
          radius * HasTrig.sin ((i : K) * (360 / (numDots : K)) * HasTrig.pi / 180)⟩ ∧
      particle.color = getColor ((i : K) * (360 / (numDots : K))) uninit ∧
      particle.vel = ⟨0, 0⟩ ∧
      particle.acc = ⟨0, 2⟩ ∧
      0 ≤ (i : K) * (360 / (numDots : K)) ∧ (i : K) * (360 / (numDots : K)) < 360 := by
  have _hpos : 0 < numDots := by omega
  refine ⟨_, placeDotsInCircle_getElem radius numDots initPos uninit i hi, ?_, rfl, rfl, rfl,
    angle_range numDots i hi⟩
  ext
  · simp only [dotAt, Particle.ctor, Vector2.add]
    ring
  · simp only [dotAt, Particle.ctor, Vector2.add]
    ring

/-- Witness for C15: the particle of index `1` among `4` on the ring of radius
`150` around `(1000, 667)`, built from the angle `1 * (360 / 4)`. -/
theorem placeDotsInCircle_particle_witness :
    ((1 : Int) ≤ 4 ∧ (((1 : ℕ) : Int) < 4)) ∧
    ∃ particle : Particle ℝ,
      (placeDotsInCircle (150 : ℝ) 4 ⟨1000, 667⟩ (0, 0, 0))[1]? = some particle ∧
      particle.pos = (⟨1000, 667⟩ : Vector2 ℝ).add
        ⟨150 * HasTrig.cos (((1 : ℕ) : ℝ) * (360 / ((4 : Int) : ℝ)) * HasTrig.pi / 180),
          150 * HasTrig.sin (((1 : ℕ) : ℝ) * (360 / ((4 : Int) : ℝ)) * HasTrig.pi / 180)⟩ ∧
      particle.color = getColor (((1 : ℕ) : ℝ) * (360 / ((4 : Int) : ℝ))) (0, 0, 0) ∧
      particle.vel = ⟨0, 0⟩ ∧
      particle.acc = ⟨0, 2⟩ ∧
      0 ≤ ((1 : ℕ) : ℝ) * (360 / ((4 : Int) : ℝ)) ∧
      ((1 : ℕ) : ℝ) * (360 / ((4 : Int) : ℝ)) < 360 :=
  ⟨⟨by norm_num, by norm_num⟩,
    placeDotsInCircle_particle (150 : ℝ) 4 ⟨1000, 667⟩ (0, 0, 0) 1 (by norm_num) (by norm_num)⟩

end Placement

/-! ## Distance of the placed particles from the ring centre -/

section Ring

/-- The particle built from any angle on a ring of radius `R ≥ 0` around `C`
is at distance `R` from `C`. -/
theorem dotAt_distance (radius : ℝ) (initPos : Vector2 ℝ) (uninit : ℝ × ℝ × ℝ)
    (angle : ℝ) (hR : 0 ≤ radius) :
    ((dotAt radius initPos uninit angle).pos.sub initPos).length = radius := by
  apply length_of_sq _ radius hR
  simp only [dotAt, Particle.ctor, Vector2.sub, HasTrig.cos, HasTrig.sin, HasTrig.pi]
  have h := Real.sin_sq_add_cos_sq (angle * Real.pi / 180)
  linear_combination (radius * radius) * h

/-- C14: for a ring radius `R ≥ 0`, a count `N ≥ 1` and a centre `C`,
`placeDotsInCircle(R, N, C)` returns `N` particles and the position of each of
them is at Euclidean distance exactly `R` from `C` (exact real arithmetic with
the real cosine and sine). -/
theorem placeDotsInCircle_on_ring (radius : ℝ) (numDots : Int) (initPos : Vector2 ℝ)
    (uninit : ℝ × ℝ × ℝ) (hR : 0 ≤ radius) (hN : 1 ≤ numDots) :
    ((placeDotsInCircle radius numDots initPos uninit).length : Int) = numDots ∧
    ∀ particle ∈ placeDotsInCircle radius numDots initPos uninit,
      (particle.pos.sub initPos).length = radius := by
  constructor
  · rw [placeDotsInCircle_eq, List.length_map, List.length_range]
    exact Int.toNat_of_nonneg (by omega)
  · intro particle hmem
    rw [placeDotsInCircle_eq, List.mem_map] at hmem
    obtain ⟨j, -, hj⟩ := hmem
    rw [← hj]
    exact dotAt_distance radius initPos uninit _ hR

/-- Witness for C14: four particles on the ring of radius `150` around
`(1000, 667)`. -/
theorem placeDotsInCircle_on_ring_witness :
    ((0 : ℝ) ≤ 150 ∧ (1 : Int) ≤ 4) ∧
    ((placeDotsInCircle (150 : ℝ) 4 ⟨1000, 667⟩ (0, 0, 0)).length : Int) = 4 ∧
    ∀ particle ∈ placeDotsInCircle (150 : ℝ) 4 ⟨1000, 667⟩ (0, 0, 0),
      (particle.pos.sub ⟨1000, 667⟩).length = 150 :=
  ⟨⟨by norm_num, by norm_num⟩,
    placeDotsInCircle_on_ring 150 4 ⟨1000, 667⟩ (0, 0, 0) (by norm_num) (by norm_num)⟩

end Ring

/-! ## The squared test against the distance test -/

section SquaredTest

/-- The exact-arithmetic part of the counterexample for C17: boundary of
radius `1` at the origin and a particle of radius `3` at the centre.  The distance `0` is greater than
`R - r = -2`, but the squared test `0 > (-2) * (-2)` is false. -/
theorem checkCollision_negative_offset :
    (⟨⟨0, 0⟩, 1⟩ : Circle ℝ).checkCollision
        ⟨3, ⟨0, 0⟩, ⟨0, 0⟩, ⟨0, 2⟩, ⟨255, 0, 0, 255⟩⟩ = false ∧
    (1 : ℝ) - 3 < ((⟨0, 0⟩ : Vector2 ℝ).sub ⟨0, 0⟩).length := by
  constructor
  · rw [Bool.eq_false_iff]
    intro h
    rw [checkCollision_iff] at h
    simp only [Vector2.sub, Vector2.dot] at h
    norm_num at h
  · have h0 := length_nonneg ((⟨0, 0⟩ : Vector2 ℝ).sub ⟨0, 0⟩)
    linarith

/-- C17 (amended): taking arithmetic as exact (real numbers), for a boundary
with centre `c` and radius `R` and a particle with position `p` and radius
`r ≤ R`, `checkCollision` is true exactly when the Euclidean distance from `p`
to `c` is greater than the inward-offset radius `R - r`; on these inputs the
squared test and the distance test agree. -/
theorem checkCollision_iff_distance (c : Circle ℝ) (p : Particle ℝ)
    (hrR : p.radius ≤ c.radius) :
    c.checkCollision p = true ↔ c.radius - p.radius < (p.pos.sub c.pos).length := by
  have hsq := length_mul_self (p.pos.sub c.pos)
  have hlen := length_nonneg (p.pos.sub c.pos)
  have hgap : 0 ≤ c.radius - p.radius := sub_nonneg.mpr hrR
  rw [checkCollision_iff, ← hsq]
  constructor
  · intro h
    by_contra hle
    have hle2 : (p.pos.sub c.pos).length ≤ c.radius - p.radius := not_lt.mp hle
    have := mul_self_le_mul_self hlen hle2
    linarith
  · intro h
    exact mul_self_lt_mul_self hgap h

/-- Witness for the amended C17: boundary of radius `10` at the origin and a
particle of radius `4` at `(7, 0)`; the distance `7` exceeds `R - r = 6` and
`checkCollision` is true. -/
theorem checkCollision_iff_distance_witness :
    (4 : ℝ) ≤ 10 ∧
    ((⟨⟨0, 0⟩, 10⟩ : Circle ℝ).checkCollision
        ⟨4, ⟨7, 0⟩, ⟨0, 0⟩, ⟨0, 2⟩, ⟨255, 0, 0, 255⟩⟩ = true ↔
      (10 : ℝ) - 4 < ((⟨7, 0⟩ : Vector2 ℝ).sub ⟨0, 0⟩).length) ∧
    (⟨⟨0, 0⟩, 10⟩ : Circle ℝ).checkCollision
        ⟨4, ⟨7, 0⟩, ⟨0, 0⟩, ⟨0, 2⟩, ⟨255, 0, 0, 255⟩⟩ = true :=
  have h7 : ((⟨7, 0⟩ : Vector2 ℝ).sub ⟨0, 0⟩).length = 7 :=
    length_of_sq _ 7 (by norm_num) (by simp only [Vector2.sub]; norm_num)
  ⟨by norm_num,
    checkCollision_iff_distance ⟨⟨0, 0⟩, 10⟩ ⟨4, ⟨7, 0⟩, ⟨0, 0⟩, ⟨0, 2⟩, ⟨255, 0, 0, 255⟩⟩
      (by norm_num),
    (checkCollision_iff_distance ⟨⟨0, 0⟩, 10⟩ ⟨4, ⟨7, 0⟩, ⟨0, 0⟩, ⟨0, 2⟩, ⟨255, 0, 0, 255⟩⟩
      (by norm_num)).mpr (by rw [h7]; norm_num)⟩

end SquaredTest

/-! ## The reflection as an involution, and its dependence on the radial direction -/

section Reflection

/-- Reflecting twice about a vector `n` that is zero or of unit square norm
gives the vector back. -/
theorem reflect_reflect (v n : Vector2 ℝ) (hn : n = Vector2.zero ∨ n.dot n = 1) :
    (v.sub ((n.mul 2).mul (v.dot n))).sub
        ((n.mul 2).mul ((v.sub ((n.mul 2).mul (v.dot n))).dot n)) = v := by
  rcases hn with h0 | h1
  · rw [h0]
    ext <;> simp [Vector2.sub, Vector2.mul, Vector2.dot, Vector2.zero]
  · simp only [Vector2.dot] at h1
    ext
    · simp only [Vector2.sub, Vector2.mul, Vector2.dot]
      linear_combination (4 * n.x * (v.x * n.x + v.y * n.y)) * h1
    · simp only [Vector2.sub, Vector2.mul, Vector2.dot]
      linear_combination (4 * n.y * (v.x * n.x + v.y * n.y)) * h1

/-- C19: `handleCollision` is an involution on the velocity.  For every
boundary and every particle, two calls in a row give the particle back with
its original velocity (exact arithmetic); the degenerate positions, where the
computed normal is the zero vector, are included. -/
theorem handleCollision_involution (c : Circle ℝ) (p : Particle ℝ) :
    (c.handleCollision (c.handleCollision p)).vel = p.vel ∧
    (c.handleCollision (c.handleCollision p)).pos = p.pos ∧
    ((p.pos.sub (c.closestPointOnCircle p.pos)).normalized = Vector2.zero →
      (c.handleCollision p).vel = p.vel) := by
  refine ⟨?_, rfl, ?_⟩
  · exact reflect_reflect p.vel (p.pos.sub (c.closestPointOnCircle p.pos)).normalized
      (normalized_zero_or_unit _)
  · intro h0
    simp only [Circle.handleCollision, h0]
    ext <;> simp [Vector2.sub, Vector2.mul, Vector2.dot, Vector2.zero]

/-- Witness for C19 at a degenerate position: boundary of radius `4` at the
origin, particle at the centre with velocity `(3, 5)`; the normal is the zero
vector, one call and two calls both leave the velocity `(3, 5)`. -/
theorem handleCollision_involution_witness :
    ((⟨⟨0, 0⟩, 4⟩ : Circle ℝ).handleCollision ((⟨⟨0, 0⟩, 4⟩ : Circle ℝ).handleCollision
        ⟨1, ⟨0, 0⟩, ⟨3, 5⟩, ⟨0, 2⟩, ⟨255, 0, 0, 255⟩⟩)).vel = ⟨3, 5⟩ ∧
    ((⟨⟨0, 0⟩, 4⟩ : Circle ℝ).handleCollision
        ⟨1, ⟨0, 0⟩, ⟨3, 5⟩, ⟨0, 2⟩, ⟨255, 0, 0, 255⟩⟩).vel = ⟨3, 5⟩ :=
  have hz : ((⟨0, 0⟩ : Vector2 ℝ).sub ⟨0, 0⟩).length = 0 :=
    length_of_sq _ 0 le_rfl (by simp only [Vector2.sub]; norm_num)
  have hclosest : (⟨⟨0, 0⟩, 4⟩ : Circle ℝ).closestPointOnCircle ⟨0, 0⟩ = ⟨0, 0⟩ := by
    simp only [Circle.closestPointOnCircle]
    rw [normalized_of_length_eq_zero _ hz]
    ext <;> simp [Vector2.add, Vector2.mul, Vector2.zero]
  have hnormal : ((⟨0, 0⟩ : Vector2 ℝ).sub
      ((⟨⟨0, 0⟩, 4⟩ : Circle ℝ).closestPointOnCircle ⟨0, 0⟩)).normalized = Vector2.zero := by
    rw [hclosest]
    exact normalized_of_length_eq_zero _ hz
  ⟨(handleCollision_involution ⟨⟨0, 0⟩, 4⟩ ⟨1, ⟨0, 0⟩, ⟨3, 5⟩, ⟨0, 2⟩, ⟨255, 0, 0, 255⟩⟩).1,
    (handleCollision_involution ⟨⟨0, 0⟩, 4⟩ ⟨1, ⟨0, 0⟩, ⟨3, 5⟩, ⟨0, 2⟩, ⟨255, 0, 0, 255⟩⟩).2.2
      hnormal⟩

/-- Two distinct points are at non-zero distance. -/
theorem length_sub_ne_zero (a b : Vector2 ℝ) (hab : a ≠ b) : (a.sub b).length ≠ 0 := by
  intro h
  apply hab
  have hz := (length_eq_zero_iff _).mp h
  have hx : a.x - b.x = 0 := congrArg Vector2.x hz
  have hy : a.y - b.y = 0 := congrArg Vector2.y hz
  ext
  · linarith
  · linarith

/-- At the centre of the boundary and on its circumference the normal computed
by `handleCollision` is the zero vector. -/
theorem normal_zero_of_degenerate (c : Circle ℝ) (point : Vector2 ℝ)
    (h : point = c.pos ∨ (point.sub c.pos).length = c.radius) :
    (point.sub (c.closestPointOnCircle point)).normalized = Vector2.zero := by
  apply normalized_of_length_eq_zero
  by_cases hd : (point.sub c.pos).length = 0
  · have hz := (length_eq_zero_iff _).mp hd
    have hx : point.x - c.pos.x = 0 := congrArg Vector2.x hz
    have hy : point.y - c.pos.y = 0 := congrArg Vector2.y hz
    simp only [Circle.closestPointOnCircle]
    rw [normalized_of_length_eq_zero _ hd]
    apply length_of_sq _ 0 le_rfl
    simp only [Vector2.sub, Vector2.add, Vector2.mul, Vector2.zero]
    have hx2 : point.x - (c.pos.x + 0 * c.radius) = 0 := by linarith
    have hy2 : point.y - (c.pos.y + 0 * c.radius) = 0 := by linarith
    rw [hx2, hy2]
    ring
  · have hR : (point.sub c.pos).length = c.radius := by
      rcases h with hc | hR
      · exfalso
        apply hd
        rw [hc]
        exact length_of_sq _ 0 le_rfl (by simp only [Vector2.sub]; ring)
      · exact hR
    rw [sub_closestPointOnCircle c point hd, ← hR, div_self hd, sub_self]
    apply length_of_sq _ 0 le_rfl
    simp only [Vector2.mul]
    ring

/-- C20 (amended): taking arithmetic as exact (real numbers), the reflection
depends only on the radial direction.  For a boundary with centre `c` and
radius `R` and a particle with `p ≠ c` and `|p - c| ≠ R`, `handleCollision`
stores `v - 2 * dot(v, u) * u` with `u = (p - c) / |p - c|`; and when `p = c` or
`|p - c| = R` the computed normal is the zero vector and the velocity is stored
unchanged. -/
theorem handleCollision_radial_direction (c : Circle ℝ) (p : Particle ℝ) :
    (p.pos ≠ c.pos → (p.pos.sub c.pos).length ≠ c.radius →
      (c.handleCollision p).vel
        = p.vel.sub (((p.pos.sub c.pos).mul (1 / (p.pos.sub c.pos).length)).mul
            (2 * p.vel.dot ((p.pos.sub c.pos).mul (1 / (p.pos.sub c.pos).length))))) ∧
    (p.pos = c.pos ∨ (p.pos.sub c.pos).length = c.radius →
      (p.pos.sub (c.closestPointOnCircle p.pos)).normalized = Vector2.zero ∧
        (c.handleCollision p).vel = p.vel) := by
  constructor
  · intro hpc hrim
    have hd := length_sub_ne_zero p.pos c.pos hpc
    rw [handleCollision_radial c p hd hrim, normalized_of_length_ne_zero _ hd]
    ext
    · simp only [Vector2.sub, Vector2.mul, Vector2.dot]
      ring
    · simp only [Vector2.sub, Vector2.mul, Vector2.dot]
      ring
  · intro hdeg
    have h0 := normal_zero_of_degenerate c p.pos hdeg
    refine ⟨h0, ?_⟩
    simp only [Circle.handleCollision, h0]
    ext <;> simp [Vector2.sub, Vector2.mul, Vector2.dot, Vector2.zero]

/-- Witness for the amended C20: boundary of radius `4` at the origin and velocity
`(3, 5)`; at `(5, 0)` the velocity is reflected about the radial direction, at
`(4, 0)`, on the circumference, the normal is zero and the velocity is kept. -/
theorem handleCollision_radial_direction_witness :
    ((⟨⟨0, 0⟩, 4⟩ : Circle ℝ).handleCollision
        ⟨1, ⟨5, 0⟩, ⟨3, 5⟩, ⟨0, 2⟩, ⟨255, 0, 0, 255⟩⟩).vel
      = (⟨3, 5⟩ : Vector2 ℝ).sub
          ((((⟨5, 0⟩ : Vector2 ℝ).sub ⟨0, 0⟩).mul
              (1 / ((⟨5, 0⟩ : Vector2 ℝ).sub ⟨0, 0⟩).length)).mul
            (2 * (⟨3, 5⟩ : Vector2 ℝ).dot
              (((⟨5, 0⟩ : Vector2 ℝ).sub ⟨0, 0⟩).mul
                (1 / ((⟨5, 0⟩ : Vector2 ℝ).sub ⟨0, 0⟩).length)))) ∧
    (((⟨4, 0⟩ : Vector2 ℝ).sub
        ((⟨⟨0, 0⟩, 4⟩ : Circle ℝ).closestPointOnCircle ⟨4, 0⟩)).normalized = Vector2.zero ∧
      ((⟨⟨0, 0⟩, 4⟩ : Circle ℝ).handleCollision
        ⟨1, ⟨4, 0⟩, ⟨3, 5⟩, ⟨0, 2⟩, ⟨255, 0, 0, 255⟩⟩).vel = ⟨3, 5⟩) :=
  have h5 : ((⟨5, 0⟩ : Vector2 ℝ).sub ⟨0, 0⟩).length = 5 :=
    length_of_sq _ 5 (by norm_num) (by simp only [Vector2.sub]; norm_num)
  have h4 : ((⟨4, 0⟩ : Vector2 ℝ).sub ⟨0, 0⟩).length = 4 :=
    length_of_sq _ 4 (by norm_num) (by simp only [Vector2.sub]; norm_num)
  ⟨(handleCollision_radial_direction ⟨⟨0, 0⟩, 4⟩
      ⟨1, ⟨5, 0⟩, ⟨3, 5⟩, ⟨0, 2⟩, ⟨255, 0, 0, 255⟩⟩).1
      (by
        intro h
        have hx : (5 : ℝ) = 0 := congrArg Vector2.x h
        norm_num at hx)
      (by rw [h5]; norm_num),
    (handleCollision_radial_direction ⟨⟨0, 0⟩, 4⟩
      ⟨1, ⟨4, 0⟩, ⟨3, 5⟩, ⟨0, 2⟩, ⟨255, 0, 0, 255⟩⟩).2 (Or.inr h4)⟩

end Reflection

/-! ## One simulation tick -/

section Tick

/-- A call of `handleCollision` returns the particle with only `vel` replaced. -/
theorem handleCollision_eq_with_vel {K : Type} [LinearOrderedField K] [HasSqrt K]
    (c : Circle K) (p : Particle K) :
    c.handleCollision p = { p with vel := (c.handleCollision p).vel } :=
  rfl

/-- In the scenario `update(1)` moves the particle by its velocity. -/
theorem scenario_update (r x vx : ℝ) (color : SDL_Color) :
    (scenarioParticle r x vx color).update 1 = scenarioParticle r (x + vx) vx color := by
  simp [scenarioParticle, Particle.ctor, Particle.update, Vector2.addAssign, Vector2.mul]

/-- In the scenario `checkCollision` compares `x * x` with `(100 - r) * (100 - r)`. -/
theorem scenario_check (r x vx : ℝ) (color : SDL_Color) :
    (scenarioCircle : Circle ℝ).checkCollision (scenarioParticle r x vx color) = true ↔
      (100 - r) * (100 - r) < x * x := by
  rw [checkCollision_iff]
  simp [scenarioCircle, scenarioParticle, Particle.ctor, Vector2.sub, Vector2.dot]

/-- In the scenario, `handleCollision` at `(110, 0)` turns the velocity
`(20, 0)` into `(-20, 0)` and leaves the position. -/
theorem scenario_handle (r : ℝ) (color : SDL_Color) :
    (scenarioCircle : Circle ℝ).handleCollision (scenarioParticle r 110 20 color)
      = scenarioParticle r 110 (-20) color := by
  have hw : ((scenarioParticle r 110 20 color).pos.sub (scenarioCircle : Circle ℝ).pos).length
      = 110 :=
    length_of_sq _ 110 (by norm_num)
      (by simp only [scenarioParticle, scenarioCircle, Particle.ctor, Vector2.sub]; norm_num)
  have hd : ((scenarioParticle r 110 20 color).pos.sub (scenarioCircle : Circle ℝ).pos).length
      ≠ 0 := by
    rw [hw]
    norm_num
  have hR : ((scenarioParticle r 110 20 color).pos.sub (scenarioCircle : Circle ℝ).pos).length
      ≠ (scenarioCircle : Circle ℝ).radius := by
    rw [hw]
    simp only [scenarioCircle]
    norm_num
  rw [handleCollision_eq_with_vel, handleCollision_radial _ _ hd hR,
    normalized_of_length_ne_zero _ hd, hw]
  simp only [scenarioParticle, scenarioCircle, Particle.ctor, Vector2.sub, Vector2.mul,
    Vector2.dot]
  norm_num

/-- C16: end-to-end scenario.  Boundary of radius `100` centred at `(0, 0)`,
one particle of radius `r` with `0 ≤ r < 10` starting at `(50, 0)` with velocity
`(20, 0)`, zero acceleration, `dt = 1`; one tick is `update(dt)` followed by
`handleCollision` if `checkCollision` is true.  `checkCollision` is false on
ticks 1 and 2 and first true on tick 3; on that tick the velocity becomes
`(-20, 0)` while the position stays at `(110, 0)`, outside the boundary circle;
after tick 4 the particle is at `(90, 0)` with velocity `(-20, 0)`. -/
theorem scenario_four_ticks (r : ℝ) (color : SDL_Color) (hr0 : 0 ≤ r) (hr : r < 10) :
    (scenarioCircle.checkCollision ((scenarioParticle r 50 20 color).update 1) = false ∧
      tickParticle scenarioCircle 1 (scenarioParticle r 50 20 color)
        = scenarioParticle r 70 20 color) ∧
    (scenarioCircle.checkCollision ((scenarioParticle r 70 20 color).update 1) = false ∧
      tickParticle scenarioCircle 1 (scenarioParticle r 70 20 color)
        = scenarioParticle r 90 20 color) ∧
    (scenarioCircle.checkCollision ((scenarioParticle r 90 20 color).update 1) = true ∧
      tickParticle scenarioCircle 1 (scenarioParticle r 90 20 color)
        = scenarioParticle r 110 (-20) color ∧
      (scenarioCircle : Circle ℝ).radius
        < ((scenarioParticle r 110 (-20) color).pos.sub scenarioCircle.pos).length) ∧
    (tickParticle scenarioCircle 1 (scenarioParticle r 110 (-20) color)
        = scenarioParticle r 90 (-20) color) ∧
    (tickParticle scenarioCircle 1)^[3] (scenarioParticle r 50 20 color)
      = scenarioParticle r 110 (-20) color ∧
    (tickParticle scenarioCircle 1)^[4] (scenarioParticle r 50 20 color)
      = scenarioParticle r 90 (-20) color := by
  have c1 : (scenarioCircle : Circle ℝ).checkCollision
      ((scenarioParticle r 50 20 color).update 1) = false := by
    rw [Bool.eq_false_iff, Ne, scenario_update, scenario_check]
    nlinarith
  have c2 : (scenarioCircle : Circle ℝ).checkCollision
      ((scenarioParticle r 70 20 color).update 1) = false := by
    rw [Bool.eq_false_iff, Ne, scenario_update, scenario_check]
    nlinarith
  have c3 : (scenarioCircle : Circle ℝ).checkCollision
      ((scenarioParticle r 90 20 color).update 1) = true := by
    rw [scenario_update, scenario_check]
    nlinarith
  have c4 : (scenarioCircle : Circle ℝ).checkCollision
      ((scenarioParticle r 110 (-20) color).update 1) = false := by
    rw [Bool.eq_false_iff, Ne, scenario_update, scenario_check]
    nlinarith
  have t1 : tickParticle scenarioCircle 1 (scenarioParticle r 50 20 color)
      = scenarioParticle r 70 20 color := by
    simp only [tickParticle, c1]
    rw [scenario_update]
    norm_num
  have t2 : tickParticle scenarioCircle 1 (scenarioParticle r 70 20 color)
      = scenarioParticle r 90 20 color := by
    simp only [tickParticle, c2]
    rw [scenario_update]
    norm_num
  have t3 : tickParticle scenarioCircle 1 (scenarioParticle r 90 20 color)
      = scenarioParticle r 110 (-20) color := by
    simp only [tickParticle, c3, if_true]
    rw [scenario_update]
    norm_num
    exact scenario_handle r color
  have t4 : tickParticle scenarioCircle 1 (scenarioParticle r 110 (-20) color)
      = scenarioParticle r 90 (-20) color := by
    simp only [tickParticle, c4]
    rw [scenario_update]
    norm_num
  have hout : (scenarioCircle : Circle ℝ).radius
      < ((scenarioParticle r 110 (-20) color).pos.sub scenarioCircle.pos).length := by
    rw [length_of_sq _ 110 (by norm_num)
      (by simp only [scenarioParticle, scenarioCircle, Particle.ctor, Vector2.sub]; norm_num)]
    simp only [scenarioCircle]
    norm_num
  refine ⟨⟨c1, t1⟩, ⟨c2, t2⟩, ⟨c3, t3, hout⟩, t4, ?_, ?_⟩
  · simp only [Function.iterate_succ, Function.iterate_zero, Function.comp_apply, id_eq,
      t1, t2, t3]
  · simp only [Function.iterate_succ, Function.iterate_zero, Function.comp_apply, id_eq,
      t1, t2, t3, t4]

/-- Witness for C16 with the particle radius `6` of the program. -/
theorem scenario_four_ticks_witness :
    ((0 : ℝ) ≤ 6 ∧ (6 : ℝ) < 10) ∧
    (tickParticle scenarioCircle 1)^[3] (scenarioParticle (6 : ℝ) 50 20 ⟨255, 0, 0, 255⟩)
      = scenarioParticle 6 110 (-20) ⟨255, 0, 0, 255⟩ ∧
    (tickParticle scenarioCircle 1)^[4] (scenarioParticle (6 : ℝ) 50 20 ⟨255, 0, 0, 255⟩)
      = scenarioParticle 6 90 (-20) ⟨255, 0, 0, 255⟩ :=
  ⟨⟨by norm_num, by norm_num⟩,
    (scenario_four_ticks 6 ⟨255, 0, 0, 255⟩ (by norm_num) (by norm_num)).2.2.2.2⟩

end Tick

/-! ## The particle loop of one tick -/

section TickLoop

variable {K : Type} [LinearOrderedField K] [HasSqrt K]

/-- One pass of the loop leaves acceleration, radius and colour of the
particle alone. -/
theorem tickParticle_frame (c : Circle K) (dt : K) (p : Particle K) :
    (tickParticle c dt p).acc = p.acc ∧ (tickParticle c dt p).radius = p.radius ∧
      (tickParticle c dt p).color = p.color := by
  simp only [tickParticle]
  split_ifs
  · exact ⟨rfl, rfl, rfl⟩
  · exact ⟨rfl, rfl, rfl⟩

/-- The loop entered at index `i`: the elements before `i` are kept, each
element from `i` on is replaced by its state after one pass. -/
theorem tickLoop_getElem? (c : Circle K) (dt : K) (n : ℕ) :
    ∀ (particles : List (Particle K)) (i : ℕ), particles.length - i = n →
      ∀ j : ℕ, (tickLoop c dt particles i)[j]?
        = if j < i then particles[j]? else (particles[j]?).map (tickParticle c dt) := by
  induction n with
  | zero =>
    intro particles i hn j
    have hi : ¬ i < particles.length := by omega
    rw [tickLoop, dif_neg hi]
    by_cases hj : j < i
    · rw [if_pos hj]
    · rw [if_neg hj, List.getElem?_eq_none (by omega)]
      rfl
  | succ k ih =>
    intro particles i hn j
    have hi : i < particles.length := by omega
    rw [tickLoop, dif_pos hi, ih _ (i + 1) (by rw [List.length_set]; omega) j]
    rcases Nat.lt_trichotomy j i with hlt | heq | hgt
    · rw [if_pos (by omega), if_pos hlt, List.getElem?_set_ne (by omega)]
    · subst heq
      rw [if_pos (by omega), if_neg (by omega), List.getElem?_set, if_pos rfl, if_pos hi,
        List.getElem?_eq_getElem hi]
      rfl
    · rw [if_neg (by omega), if_neg (by omega), List.getElem?_set_ne (by omega)]

/-- One simulation tick replaces every particle, in place, by its state after
one pass of the loop. -/
theorem simulationTick_eq_map (c : Circle K) (dt : K) (particles : List (Particle K)) :
    simulationTick c dt particles = particles.map (tickParticle c dt) := by
  apply List.ext_getElem?
  intro j
  rw [simulationTick, tickLoop_getElem? c dt particles.length particles 0 (by omega) j,
    if_neg (by omega), List.getElem?_map]

/-- C18: one simulation tick over the particle collection (for each particle
`update(dt)`, then `handleCollision` if `checkCollision` is true) preserves the
number of particles and their order: the particle at index `i` afterwards is
the one that was at index `i`, after its pass, with its acceleration, radius
and colour unchanged; only position and velocity can change. -/
theorem simulationTick_frame (c : Circle K) (dt : K) (particles : List (Particle K)) :
    (simulationTick c dt particles).length = particles.length ∧
    (simulationTick c dt particles).map (fun p => (p.acc, p.radius, p.color))
      = particles.map (fun p => (p.acc, p.radius, p.color)) ∧
    ∀ (i : ℕ) (p : Particle K), particles[i]? = some p →
      (simulationTick c dt particles)[i]? = some (tickParticle c dt p) ∧
      (tickParticle c dt p).acc = p.acc ∧ (tickParticle c dt p).radius = p.radius ∧
      (tickParticle c dt p).color = p.color := by
  rw [simulationTick_eq_map]
  refine ⟨List.length_map _ _, ?_, ?_⟩
  · rw [List.map_map]
    apply List.map_congr_left
    intro p _
    obtain ⟨ha, hr, hc⟩ := tickParticle_frame c dt p
    simp only [Function.comp_apply, ha, hr, hc]
  · intro i p hp
    rw [List.getElem?_map, hp]
    exact ⟨rfl, tickParticle_frame c dt p⟩

/-- Witness for C18 on the two scenario particles at `(50, 0)` and `(90, 0)`
with `dt = 1`: two particles afterwards, and the second one is the pass of the
particle at `(90, 0)`, which bounced. -/
theorem simulationTick_frame_witness :
    (simulationTick (scenarioCircle : Circle ℝ) 1
        [scenarioParticle 6 50 20 ⟨255, 0, 0, 255⟩,
          scenarioParticle 6 90 20 ⟨0, 255, 0, 255⟩]).length = 2 ∧
    (simulationTick (scenarioCircle : Circle ℝ) 1
        [scenarioParticle 6 50 20 ⟨255, 0, 0, 255⟩,
          scenarioParticle 6 90 20 ⟨0, 255, 0, 255⟩])[1]?
      = some (tickParticle scenarioCircle 1 (scenarioParticle 6 90 20 ⟨0, 255, 0, 255⟩)) ∧
    (tickParticle (scenarioCircle : Circle ℝ) 1
        (scenarioParticle 6 90 20 ⟨0, 255, 0, 255⟩)).color = ⟨0, 255, 0, 255⟩ :=
  ⟨(simulationTick_frame scenarioCircle 1
      [scenarioParticle 6 50 20 ⟨255, 0, 0, 255⟩,
        scenarioParticle 6 90 20 ⟨0, 255, 0, 255⟩]).1,
    ((simulationTick_frame scenarioCircle 1
      [scenarioParticle 6 50 20 ⟨255, 0, 0, 255⟩,
        scenarioParticle 6 90 20 ⟨0, 255, 0, 255⟩]).2.2 1 _ rfl).1,
    ((simulationTick_frame scenarioCircle 1
      [scenarioParticle 6 50 20 ⟨255, 0, 0, 255⟩,
        scenarioParticle 6 90 20 ⟨0, 255, 0, 255⟩]).2.2 1 _ rfl).2.2.2⟩

end TickLoop

/-! ## The boundary test and response on binary64 -/

section Rounding

/-- The loop `log2Aux` with enough fuel finds the leading bit of `n > 0`. -/
theorem log2Aux_spec (fuel : ℕ) :
    ∀ n : ℕ, 0 < n → n ≤ fuel →
      2 ^ Float64.log2Aux fuel n ≤ n ∧ n < 2 ^ (Float64.log2Aux fuel n + 1) := by
  induction fuel with
  | zero =>
    intro n hn hle
    omega
  | succ k ih =>
    intro n hn hle
    by_cases h2 : 2 ≤ n
    · have hrec := ih (n / 2) (by omega) (by omega)
      simp only [Float64.log2Aux, if_pos h2]
      have hp1 : 2 ^ (Float64.log2Aux k (n / 2) + 1) = 2 * 2 ^ Float64.log2Aux k (n / 2) := by
        rw [pow_succ]
        ring
      have hp2 : 2 ^ (Float64.log2Aux k (n / 2) + 1 + 1)
          = 2 * (2 * 2 ^ Float64.log2Aux k (n / 2)) := by
        rw [pow_succ, pow_succ]
        ring
      rw [hp1] at hrec
      rw [hp1, hp2]
      omega
    · simp only [Float64.log2Aux, if_neg h2]
      omega

/-- The fuel of `log2` is enough: `2 ^ log2 n ≤ n < 2 ^ (log2 n + 1)` for `n > 0`. -/
theorem log2_spec (n : ℕ) (hn : 0 < n) :
    2 ^ Float64.log2 n ≤ n ∧ n < 2 ^ (Float64.log2 n + 1) :=
  log2Aux_spec n n hn le_rfl

/-- The loop `isqrtAux` narrows the root from `r ≤ root < r + 2 ^ b` to the root. -/
theorem isqrtAux_spec (b : ℕ) :
    ∀ n r : ℕ, r * r ≤ n → n < (r + 2 ^ b) * (r + 2 ^ b) →
      Float64.isqrtAux b n r * Float64.isqrtAux b n r ≤ n ∧
        n < (Float64.isqrtAux b n r + 1) * (Float64.isqrtAux b n r + 1) := by
  induction b with
  | zero =>
    intro n r hlo hhi
    simpa [Float64.isqrtAux] using And.intro hlo hhi
  | succ k ih =>
    intro n r hlo hhi
    have hpow : 2 ^ (k + 1) = 2 ^ k + 2 ^ k := by
      rw [pow_succ]
      ring
    by_cases hc : (r + 2 ^ k) * (r + 2 ^ k) ≤ n
    · simp only [Float64.isqrtAux, if_pos hc]
      apply ih n (r + 2 ^ k) hc
      rw [hpow] at hhi
      rw [add_assoc]
      exact hhi
    · simp only [Float64.isqrtAux, if_neg hc]
      exact ih n r hlo (not_le.mp hc)

/-- The function `isqrt` is the integer square root. -/
theorem isqrt_spec (n : ℕ) :
    Float64.isqrt n * Float64.isqrt n ≤ n ∧
      n < (Float64.isqrt n + 1) * (Float64.isqrt n + 1) := by
  apply isqrtAux_spec _ n 0 (Nat.zero_le n)
  rw [zero_add, ← pow_add]
  rcases Nat.eq_zero_or_pos n with h0 | hpos
  · rw [h0]
    positivity
  · have hlog := (log2_spec n hpos).2
    refine lt_of_lt_of_le hlog (Nat.pow_le_pow_right (by norm_num) ?_)
    omega

/-- The function `roundHalfEven` returns an integer within one half of `N / D`,
and an even one when `N / D` is half-way between two integers. -/
theorem roundHalfEven_spec (N D : ℕ) (hD : 0 < D) :
    2 * (Float64.roundHalfEven N D * D) ≤ 2 * N + D ∧
    2 * N ≤ 2 * (Float64.roundHalfEven N D * D) + D ∧
    (2 * (N % D) = D → Float64.roundHalfEven N D % 2 = 0) := by
  have hdm : D * (N / D) + N % D = N := Nat.div_add_mod N D
  have hmod : N % D < D := Nat.mod_lt N hD
  have hcomm : N / D * D = D * (N / D) := Nat.mul_comm _ _
  have hsucc : (N / D + 1) * D = D * (N / D) + D := by
    rw [Nat.add_mul, Nat.one_mul, hcomm]
  simp only [Float64.roundHalfEven]
  split_ifs with h1 h2 h3
  · rw [hcomm]
    refine ⟨by omega, by omega, by omega⟩
  · rw [hsucc]
    refine ⟨by omega, by omega, by omega⟩
  · rw [hcomm]
    refine ⟨by omega, by omega, fun _ => h3⟩
  · rw [hsucc]
    refine ⟨by omega, by omega, fun _ => by omega⟩

/-- Values of the rounding model at well-known points: `0.1` and `0.2` are the
binary64 values `0x3FB999999999999A` and `0x3FC999999999999A`, `1 + 2 ^ (-60)`
rounds to `1`, a tie between two neighbours goes to the even significand, and
`sqrt 2` is `0x3FF6A09E667F3BCD`. -/
theorem roundNE_known_values :
    Float64.roundNE (1 / 10) = 3602879701896397 / 36028797018963968 ∧
    Float64.roundNE (1 / 5) = 3602879701896397 / 18014398509481984 ∧
    Float64.roundNE (1 + 1 / 2 ^ 60) = 1 ∧
    Float64.roundNE (1 + 1 / 2 ^ 53) = 1 ∧
    Float64.roundNE (1 + 3 / 2 ^ 53) = 1 + 1 / 2 ^ 51 ∧
    Float64.roundNE (1 / 2 ^ 30) = 1 / 2 ^ 30 ∧
    Float64.sqrtNE 25 = 5 ∧
    Float64.sqrtNE 2 = 6369051672525773 / 4503599627370496 := by
  decide!

/-- Counterexample for C3 as stated, on the `double` arithmetic of the code.
Boundary of radius `2` at the origin, particle of radius `1` at
`(1, 2 ^ (-30))`: the distance from the centre is greater than `R - r = 1`, but
the squared distance `1 + 2 ^ (-60)` rounds to `1` and `checkCollision` returns
false.  Boundary of radius `481747379`, particle of radius `6` at
`(318412635, 361516148)`: the distance is exactly `R - r = 481747373`, but the
rounded squares compare as greater and `checkCollision` returns true. -/
theorem checkCollision_threshold_on_doubles :
    (((0 : ℚ) ≤ 1 ∧ (1 : ℚ) ≤ 2) ∧
      Float64.roundNE (1 / 2 ^ 30) = 1 / 2 ^ 30 ∧
      (⟨⟨0, 0⟩, 2⟩ : Circle F64).checkCollisionD
          ⟨1, ⟨1, ⟨1 / 2 ^ 30⟩⟩, ⟨0, 0⟩, ⟨0, 2⟩, ⟨255, 0, 0, 255⟩⟩ = false ∧
      (2 : ℝ) - 1 < ((⟨1, 1 / 2 ^ 30⟩ : Vector2 ℝ).sub ⟨0, 0⟩).length) ∧
    (((0 : ℚ) ≤ 6 ∧ (6 : ℚ) ≤ 481747379) ∧
      (⟨⟨0, 0⟩, 481747379⟩ : Circle F64).checkCollisionD
          ⟨6, ⟨318412635, 361516148⟩, ⟨0, 0⟩, ⟨0, 2⟩, ⟨255, 0, 0, 255⟩⟩ = true ∧
      ((⟨318412635, 361516148⟩ : Vector2 ℝ).sub ⟨0, 0⟩).length = 481747379 - 6) := by
  refine ⟨⟨by decide!, by decide!, by decide!, ?_⟩, by decide!, by decide!, ?_⟩
  · rw [length_eq_sqrt, Real.lt_sqrt (by norm_num)]
    simp only [Vector2.sub]
    norm_num
  · exact length_of_sq _ _ (by norm_num) (by simp only [Vector2.sub]; norm_num)

/-- Counterexample for C17 as stated.  In exact arithmetic: boundary of radius
`1` and a particle of radius `3` at the centre, where the distance `0` exceeds
`R - r = -2` and the squared test is false.  On the `double` arithmetic of the
code, with `r ≤ R`: boundary of radius `3` at the origin, particle of radius
`1` at `(2, 2 ^ (-30))`, where the distance exceeds `R - r = 2`, but the squared
distance `4 + 2 ^ (-60)` rounds to `4` and `checkCollision` returns false. -/
theorem checkCollision_distance_test_fails :
    ((⟨⟨0, 0⟩, 1⟩ : Circle ℝ).checkCollision
          ⟨3, ⟨0, 0⟩, ⟨0, 0⟩, ⟨0, 2⟩, ⟨255, 0, 0, 255⟩⟩ = false ∧
      (1 : ℝ) - 3 < ((⟨0, 0⟩ : Vector2 ℝ).sub ⟨0, 0⟩).length) ∧
    ((1 : ℚ) ≤ 3 ∧
      Float64.roundNE (1 / 2 ^ 30) = 1 / 2 ^ 30 ∧
      (⟨⟨0, 0⟩, 3⟩ : Circle F64).checkCollisionD
          ⟨1, ⟨2, ⟨1 / 2 ^ 30⟩⟩, ⟨0, 0⟩, ⟨0, 2⟩, ⟨255, 0, 0, 255⟩⟩ = false ∧
      (3 : ℝ) - 1 < ((⟨2, 1 / 2 ^ 30⟩ : Vector2 ℝ).sub ⟨0, 0⟩).length) := by
  refine ⟨checkCollision_negative_offset, by decide!, by decide!, by decide!, ?_⟩
  rw [length_eq_sqrt, Real.lt_sqrt (by norm_num)]
  simp only [Vector2.sub]
  norm_num

/-- Counterexample for C6 as stated.  In exact arithmetic: a particle on the
circumference with outward velocity keeps its velocity.  On the `double`
arithmetic of the code, off the circumference: boundary of radius `4` at the
origin, particle of radius `1` at `(3, 4)` with velocity `(3, 4) = 1 * (p - c)`;
`checkCollision` is true, the distance `5` differs from `R`, and
`handleCollision` stores `(-3 + 2 ^ (-49), -4 - 2 ^ (-49))`, which is not the
exact negation `(-3, -4)`. -/
theorem handleCollision_outward_bounce_fails :
    ((⟨⟨0, 0⟩, 4⟩ : Circle ℝ).checkCollision
          ⟨1, ⟨4, 0⟩, ⟨4, 0⟩, ⟨0, 2⟩, ⟨255, 0, 0, 255⟩⟩ = true ∧
      (0 : ℝ) < 1 ∧
      (⟨4, 0⟩ : Vector2 ℝ) ≠ ⟨0, 0⟩ ∧
      (⟨4, 0⟩ : Vector2 ℝ) = ((⟨4, 0⟩ : Vector2 ℝ).sub ⟨0, 0⟩).mul 1 ∧
      ((⟨⟨0, 0⟩, 4⟩ : Circle ℝ).handleCollision
          ⟨1, ⟨4, 0⟩, ⟨4, 0⟩, ⟨0, 2⟩, ⟨255, 0, 0, 255⟩⟩).vel = ⟨4, 0⟩ ∧
      ((⟨⟨0, 0⟩, 4⟩ : Circle ℝ).handleCollision
          ⟨1, ⟨4, 0⟩, ⟨4, 0⟩, ⟨0, 2⟩, ⟨255, 0, 0, 255⟩⟩).vel ≠ ⟨-4, -0⟩) ∧
    ((⟨⟨0, 0⟩, 4⟩ : Circle F64).checkCollisionD
          ⟨1, ⟨3, 4⟩, ⟨3, 4⟩, ⟨0, 2⟩, ⟨255, 0, 0, 255⟩⟩ = true ∧
      (0 : ℚ) < 1 ∧
      (3 : F64) ≠ 0 ∧
      ((((⟨3, 4⟩ : Vector2 F64).subD ⟨0, 0⟩).mulD 1).x = 3 ∧
        (((⟨3, 4⟩ : Vector2 F64).subD ⟨0, 0⟩).mulD 1).y = 4) ∧
      ((⟨3, 4⟩ : Vector2 ℝ).sub ⟨0, 0⟩).length ≠ 4 ∧
      ((⟨⟨0, 0⟩, 4⟩ : Circle F64).handleCollisionD
          ⟨1, ⟨3, 4⟩, ⟨3, 4⟩, ⟨0, 2⟩, ⟨255, 0, 0, 255⟩⟩).vel.x.val
        = -3 + 1 / 2 ^ 49 ∧
      ((⟨⟨0, 0⟩, 4⟩ : Circle F64).handleCollisionD
          ⟨1, ⟨3, 4⟩, ⟨3, 4⟩, ⟨0, 2⟩, ⟨255, 0, 0, 255⟩⟩).vel.y.val
        = -4 - 1 / 2 ^ 49 ∧
      ((⟨⟨0, 0⟩, 4⟩ : Circle F64).handleCollisionD
          ⟨1, ⟨3, 4⟩, ⟨3, 4⟩, ⟨0, 2⟩, ⟨255, 0, 0, 255⟩⟩).vel.x.val ≠ -3) := by
  refine ⟨handleCollision_outward_on_circumference, by decide!, by decide!, by decide!,
    by decide!, ?_, by decide!, by decide!, by decide!⟩
  rw [length_of_sq _ 5 (by norm_num) (by simp only [Vector2.sub]; norm_num)]
  norm_num

/-- Counterexample for C20 as stated, on the `double` arithmetic of the code.
Boundary of radius `5` at the origin, particle at `(3, 4)` with velocity
`(3, 4)`: the distance from the centre is exactly `R = 5`, but `3 * (1 / 5)`
rounds up, the closest point is computed as `(3 + 2 ^ (-51), 4)`, the normal
is `(-1, 0)` and not the zero vector, and `handleCollision` stores `(-3, 4)`
instead of leaving `(3, 4)`. -/
theorem handleCollision_on_circumference_on_doubles :
    ((⟨3, 4⟩ : Vector2 ℝ).sub ⟨0, 0⟩).length = 5 ∧
    ((⟨⟨0, 0⟩, 5⟩ : Circle F64).closestPointOnCircleD ⟨3, 4⟩).x.val = 3 + 1 / 2 ^ 51 ∧
    ((⟨⟨0, 0⟩, 5⟩ : Circle F64).closestPointOnCircleD ⟨3, 4⟩).y.val = 4 ∧
    (((⟨3, 4⟩ : Vector2 F64).subD
        ((⟨⟨0, 0⟩, 5⟩ : Circle F64).closestPointOnCircleD ⟨3, 4⟩)).normalizedD.x.val = -1 ∧
      ((⟨3, 4⟩ : Vector2 F64).subD
        ((⟨⟨0, 0⟩, 5⟩ : Circle F64).closestPointOnCircleD ⟨3, 4⟩)).normalizedD.y.val = 0) ∧
    ((⟨⟨0, 0⟩, 5⟩ : Circle F64).handleCollisionD
        ⟨1, ⟨3, 4⟩, ⟨3, 4⟩, ⟨0, 2⟩, ⟨255, 0, 0, 255⟩⟩).vel.x.val = -3 ∧
    ((⟨⟨0, 0⟩, 5⟩ : Circle F64).handleCollisionD
        ⟨1, ⟨3, 4⟩, ⟨3, 4⟩, ⟨0, 2⟩, ⟨255, 0, 0, 255⟩⟩).vel.y.val = 4 ∧
    ((⟨⟨0, 0⟩, 5⟩ : Circle F64).handleCollisionD
        ⟨1, ⟨3, 4⟩, ⟨3, 4⟩, ⟨0, 2⟩, ⟨255, 0, 0, 255⟩⟩).vel.x ≠ 3 := by
  refine ⟨?_, by decide!, by decide!, by decide!, by decide!, by decide!, by decide!⟩
  exact length_of_sq _ 5 (by norm_num) (by simp only [Vector2.sub]; norm_num)

end Rounding

end Collisions
